import Mathlib

/-!
# Verification of the binary-search-tree / AVL repository

Shallow embedding of `src/include/bst.hpp` (class `BST`) and
`src/include/avl.hpp` (class `AVL`), both instantiated at `T = Int`
(the element type only needs a strict total order `<`).

Modelling conventions:
* A `TreeNode*` owning pointer structure becomes an inductive tree;
  `nullptr` is the `nil` constructor.
* A C++ member `f(TreeNode*& node, ...)` that returns `bool` and mutates
  the slot `node` becomes a Lean function returning `Bool × Tree`:
  the flag and the final contents of the slot.
* Reading a field of a null pointer (undefined behaviour) is modelled by
  returning `none` from an `Option`-valued function.
* `avl.hpp` contains duplicate member definitions (`AVL::insert` at lines
  304 and 345, `AVL::remove` at 328 and 363, `AVL::contain` twice); the
  duplicates with empty bodies are slips, and the non-empty definitions
  are embedded here.  `AVL::balance` calls `rotateRight` / `rotateLeft`,
  which are defined nowhere in the repository; those two primitives are
  modelled from the spec (§4.4 rotation contracts) and are marked as such.
-/

/-- A `BST<T>::TreeNode` tree (fields `data`, `left`, `right`); `nil` is
`nullptr`. -/
inductive BTree where
  | nil : BTree
  | node (left : BTree) (data : Int) (right : BTree) : BTree
deriving DecidableEq, Repr

/-- Number of nodes of a `BST` tree. -/
def sizeB : BTree → Nat
  | .nil => 0
  | .node l _ r => sizeB l + sizeB r + 1

namespace BST

/-- Embeds `BST<T>::insert(TreeNode*& node, const T& value)` (bst.hpp:253-264):
returns the flag and the final contents of the slot `node`. -/
def insert : BTree → Int → Bool × BTree
  | .nil, v => (true, .node .nil v .nil)
  | .node l d r, v =>
    if v < d then
      let p := insert l v
      (p.1, .node p.2 d r)
    else if d < v then
      let p := insert r v
      (p.1, .node l d p.2)
    else
      (false, .node l d r)

/-- Embeds `BST<T>::contain(const TreeNode* const, const T&)` (bst.hpp:272-282). -/
def contain : BTree → Int → Bool
  | .nil, _ => false
  | .node l d r, v =>
    if v < d then contain l v
    else if d < v then contain r v
    else true

/-- Embeds `BST<T>::TreeNode::max()` (bst.hpp:212-217), on the non-null node
`(l, d, r)`: follow `right` until it is null. -/
def nodeMax : BTree → Int → BTree → Int
  | _, d, .nil => d
  | _, _, .node rl rd rr => nodeMax rl rd rr

/-- Embeds `BST<T>::remove(TreeNode*& node, const T& value)` (bst.hpp:298-333). -/
def remove : BTree → Int → Bool × BTree
  | .nil, _ => (false, .nil)
  | .node l d r, v =>
    if v < d then
      let p := remove l v
      (p.1, .node p.2 d r)
    else if d < v then
      let p := remove r v
      (p.1, .node l d p.2)
    else
      match l, r with
      | .nil, .nil => (true, .nil)                    -- leaf case
      | .nil, r@(.node _ _ _) => (true, r)            -- only right child
      | l@(.node _ _ _), .nil => (true, l)            -- only left child
      | l@(.node ll ld lr), .node rl rd rr =>         -- two children
        let m := nodeMax ll ld lr
        let p := remove l m
        (p.1, .node p.2 m (.node rl rd rr))

/-- The in-order helper `BST<T>::in_order(const TreeNode* const, vector&)`
(bst.hpp:336-341) on the non-null node `(l, d, r)`: it checks its children
for null before recursing but never checks its own argument. -/
def inOrderNode : BTree → Int → BTree → List Int
  | l, d, r =>
    (match l with
     | .nil => []
     | .node a b c => inOrderNode a b c)
    ++ [d] ++
    (match r with
     | .nil => []
     | .node a b c => inOrderNode a b c)
termination_by l _ r => sizeB l + sizeB r
decreasing_by all_goals (simp [sizeB]; omega)

/-- Embeds `BST<T>::in_order()` (bst.hpp:344-348): calls the helper on `root`
unconditionally; on an empty tree the helper reads `node->left` of a null
pointer, modelled as `none`. -/
def in_order : BTree → Option (List Int)
  | .nil => none
  | .node l d r => some (inOrderNode l d r)

/-- The pre-order helper (bst.hpp:351-356) on a non-null node. -/
def preOrderNode : BTree → Int → BTree → List Int
  | l, d, r =>
    [d]
    ++ (match l with
        | .nil => []
        | .node a b c => preOrderNode a b c)
    ++ (match r with
        | .nil => []
        | .node a b c => preOrderNode a b c)
termination_by l _ r => sizeB l + sizeB r
decreasing_by all_goals (simp [sizeB]; omega)

/-- Embeds `BST<T>::pre_order()` (bst.hpp:359-363); `none` on the empty tree
(null dereference in the helper). -/
def pre_order : BTree → Option (List Int)
  | .nil => none
  | .node l d r => some (preOrderNode l d r)

/-- The post-order helper (bst.hpp:366-371) on a non-null node. -/
def postOrderNode : BTree → Int → BTree → List Int
  | l, d, r =>
    (match l with
     | .nil => []
     | .node a b c => postOrderNode a b c)
    ++ (match r with
        | .nil => []
        | .node a b c => postOrderNode a b c)
    ++ [d]
termination_by l _ r => sizeB l + sizeB r
decreasing_by all_goals (simp [sizeB]; omega)

/-- Embeds `BST<T>::post_order()` (bst.hpp:374-378); `none` on the empty tree. -/
def post_order : BTree → Option (List Int)
  | .nil => none
  | .node l d r => some (postOrderNode l d r)

/-- Embeds `BST<T>::find_node(TreeNode* node, const T& value)` (bst.hpp:114-126);
the returned `TreeNode*` is modelled as the subtree rooted at it, `none`
for `nullptr`. -/
def find_node : BTree → Int → Option BTree
  | .nil, _ => none
  | .node l d r, v =>
    if v < d then find_node l v
    else if d < v then find_node r v
    else some (.node l d r)

end BST

/-- Value stored at the root (`root->data`), if any. -/
def rootDataB : BTree → Option Int
  | .nil => none
  | .node _ d _ => some d

/-- Structural membership: the value appears in some node. -/
def memB : BTree → Int → Bool
  | .nil, _ => false
  | .node l d r, x => x == d || memB l x || memB r x

/-- Every value in the tree is strictly below the bound. -/
def allLtB : BTree → Int → Bool
  | .nil, _ => true
  | .node l d r, b => decide (d < b) && allLtB l b && allLtB r b

/-- Every value in the tree is strictly above the bound. -/
def allGtB : BTree → Int → Bool
  | .nil, _ => true
  | .node l d r, b => decide (b < d) && allGtB l b && allGtB r b

/-- The search-tree property (spec §3): left values below the node's
value, right values above, recursively. -/
def orderedB : BTree → Bool
  | .nil => true
  | .node l d r => allLtB l d && allGtB r d && orderedB l && orderedB r

/-- An `AVL<T>::TreeNode` tree (fields `data`, `left`, `right`, `height`);
`nil` is `nullptr`.  The `h` component is the *cached* `height` field. -/
inductive ATree where
  | nil : ATree
  | node (left : ATree) (data : Int) (h : Int) (right : ATree) : ATree
deriving DecidableEq, Repr

/-- Number of nodes of an `AVL` tree. -/
def sizeA : ATree → Nat
  | .nil => 0
  | .node l _ _ r => sizeA l + sizeA r + 1

namespace AVL

/-- Embeds `AVL<T>::height(TreeNode*)` (avl.hpp:237-239): `-1` for `nullptr`,
otherwise the cached `height` field. -/
def height : ATree → Int
  | .nil => -1
  | .node _ _ h _ => h

/-- Modelled from the spec: `rotateRight` is called by `AVL::balance`
(avl.hpp:253,257,264) but defined nowhere in the repository.  Spec §4.4
rotation contract, right rotation at node `N` with left child `L`:
`L` becomes the new subtree root, `N`'s left child becomes `L`'s former
right child, `L`'s right child becomes `N`, and the heights of `N` then
`L` are recomputed, in that order.  On a shape with no left child (which
`balance` never produces) it leaves the tree unchanged. -/
def rotateRight : ATree → ATree
  | .node (.node ll ld _ lr) d _ r =>
    let n := ATree.node lr d (1 + max (height lr) (height r)) r
    ATree.node ll ld (1 + max (height ll) (height n)) n
  | t => t

/-- Modelled from the spec: mirror image of `rotateRight` (spec §4.4,
"Left rotation is the mirror image"); called by `AVL::balance`
(avl.hpp:255,262,265) but defined nowhere in the repository. -/
def rotateLeft : ATree → ATree
  | .node l d _ (.node rl rd _ rr) =>
    let n := ATree.node l d (1 + max (height l) (height rl)) rl
    ATree.node n rd (1 + max (height n) (height rr)) rr
  | t => t

/-- Embeds `AVL<T>::balance(TreeNode*&)` (avl.hpp:242-268): recompute the node's
height from the cached child heights, compute the balance factor, and
rotate.  When `bf > 1` (resp. `< -1`) the code dereferences `node->left`
(resp. `node->right`); that child is provably non-null then, since a null
child has height `-1`; the dead branch returns the node unrotated. -/
def balance : ATree → ATree
  | .nil => .nil
  | .node l d _ r =>
    let h := 1 + max (height l) (height r)
    let bf := height l - height r
    if 1 < bf then
      match l with
      | l@(.node ll _ _ lr) =>
        if height lr ≤ height ll then
          rotateRight (.node l d h r)
        else
          rotateRight (.node (rotateLeft l) d h r)
      | .nil => .node l d h r          -- unreachable: height .nil = -1
    else if bf < -1 then
      match r with
      | r@(.node rl _ _ rr) =>
        if height rl ≤ height rr then
          rotateLeft (.node l d h r)
        else
          rotateLeft (.node l d h (rotateRight r))
      | .nil => .node l d h r          -- unreachable
    else
      .node l d h r

/-- Embeds `AVL<T>::insert(TreeNode*&, const T&)` (avl.hpp:304-325; the empty
duplicate definition at avl.hpp:345 is a slip): insert, and on a
successful insertion recompute the height and rebalance on the way
back up. -/
def insert : ATree → Int → Bool × ATree
  | .nil, v => (true, .node .nil v 0 .nil)
  | .node l d h r, v =>
    if v < d then
      let p := insert l v
      if p.1 then
        (true, balance (.node p.2 d (1 + max (height p.2) (height r)) r))
      else (false, .node p.2 d h r)
    else if d < v then
      let p := insert r v
      if p.1 then
        (true, balance (.node l d (1 + max (height l) (height p.2)) p.2))
      else (false, .node l d h p.2)
    else
      (false, .node l d h r)           -- duplicate

/-- Embeds `AVL<T>::contain(const TreeNode* const, const T&)` (avl.hpp:336-342;
the second identical definition at avl.hpp:353-360 is a duplicate). -/
def contain : ATree → Int → Bool
  | .nil, _ => false
  | .node l d _ r, v =>
    if v < d then contain l v
    else if d < v then contain r v
    else true

/-- Embeds `AVL<T>::TreeNode::max()` (avl.hpp:281-283), on the non-null node
`(l, d, r)`. -/
def nodeMax : ATree → Int → ATree → Int
  | _, d, .nil => d
  | _, _, .node rl rd _ rr => nodeMax rl rd rr

/-- Embeds `AVL<T>::remove(TreeNode*&, const T&)` (avl.hpp:368-415; the empty
duplicate public definition at avl.hpp:328 is a slip): remove following
the three BST cases, then, on success and if the slot is non-null,
recompute the height and rebalance. -/
def remove : ATree → Int → Bool × ATree
  | .nil, _ => (false, .nil)
  | .node l d h r, v =>
    let p : Bool × ATree :=
      if v < d then
        let q := remove l v
        (q.1, .node q.2 d h r)
      else if d < v then
        let q := remove r v
        (q.1, .node l d h q.2)
      else
        match l, r with
        | .nil, .nil => (true, .nil)                        -- leaf case
        | .nil, r@(.node _ _ _ _) => (true, r)              -- only right child
        | l@(.node _ _ _ _), .nil => (true, l)              -- only left child
        | l@(.node ll ld _ lr), .node rl rd rh rr =>        -- two children
          let m := nodeMax ll ld lr
          let q := remove l m
          (q.1, .node q.2 m h (.node rl rd rh rr))
    if p.1 then
      match p.2 with
      | .nil => (true, .nil)
      | .node l2 d2 _ r2 =>
        (true, balance (.node l2 d2 (1 + max (height l2) (height r2)) r2))
    else (false, p.2)

/-- The in-order helper `AVL<T>::in_order(const TreeNode* const, vector&)`
(avl.hpp:427-432); unlike the `BST` one it checks its argument for null. -/
def inOrderA : ATree → List Int
  | .nil => []
  | .node l d _ r => inOrderA l ++ [d] ++ inOrderA r

/-- Embeds `AVL<T>::in_order()` (avl.hpp:419-423). -/
def in_order (t : ATree) : List Int := inOrderA t

/-- The pre-order helper (avl.hpp:442-447). -/
def preOrderA : ATree → List Int
  | .nil => []
  | .node l d _ r => [d] ++ preOrderA l ++ preOrderA r

/-- Embeds `AVL<T>::pre_order()` (avl.hpp:435-439). -/
def pre_order (t : ATree) : List Int := preOrderA t

/-- The post-order helper (avl.hpp:457-462). -/
def postOrderA : ATree → List Int
  | .nil => []
  | .node l d _ r => postOrderA l ++ postOrderA r ++ [d]

/-- Embeds `AVL<T>::post_order()` (avl.hpp:450-454). -/
def post_order (t : ATree) : List Int := postOrderA t

/-- The private `AVL<T>::is_balanced(TreeNode*)` (avl.hpp:209-220):
returns the pair (is the subtree balanced, its recomputed height),
ignoring the cached `height` fields. -/
def is_balanced_aux : ATree → Bool × Int
  | .nil => (true, -1)
  | .node l _ _ r =>
    let lp := is_balanced_aux l
    let rp := is_balanced_aux r
    (lp.1 && rp.1 && decide (|lp.2 - rp.2| ≤ 1), 1 + max lp.2 rp.2)

/-- The public `AVL<T>::is_balanced()` (avl.hpp:200). -/
def is_balanced (t : ATree) : Bool := (is_balanced_aux t).1

end AVL

/-- Value stored at the root of an `AVL` tree, if any. -/
def rootDataA : ATree → Option Int
  | .nil => none
  | .node _ d _ _ => some d

/-- Structural membership for `AVL` trees. -/
def memA : ATree → Int → Bool
  | .nil, _ => false
  | .node l d _ r, x => x == d || memA l x || memA r x

/-- Every value in the `AVL` tree is strictly below the bound. -/
def allLtA : ATree → Int → Bool
  | .nil, _ => true
  | .node l d _ r, b => decide (d < b) && allLtA l b && allLtA r b

/-- Every value in the `AVL` tree is strictly above the bound. -/
def allGtA : ATree → Int → Bool
  | .nil, _ => true
  | .node l d _ r, b => decide (b < d) && allGtA l b && allGtA r b

/-- The search-tree property for `AVL` trees (spec §3). -/
def orderedA : ATree → Bool
  | .nil => true
  | .node l d _ r => allLtA l d && allGtA r d && orderedA l && orderedA r

/-- Actual height of an `AVL` tree, recomputed from the structure
(spec §3 / glossary: empty subtree has height `-1`). -/
def rheight : ATree → Int
  | .nil => -1
  | .node l _ _ r => 1 + max (rheight l) (rheight r)

/-- Height-cache correctness (spec §3 invariant): every node's cached
`height` field equals `1 + max` of the actual heights of its subtrees. -/
def heightOk : ATree → Bool
  | .nil => true
  | .node l _ h r => decide (h = 1 + max (rheight l) (rheight r)) && heightOk l && heightOk r

/-- The AVL balance property on actual heights (spec §3 invariant). -/
def balancedP : ATree → Prop
  | .nil => True
  | .node l _ _ r =>
    rheight l ≤ rheight r + 1 ∧ rheight r ≤ rheight l + 1 ∧ balancedP l ∧ balancedP r

/-- In-order list of a `BST` tree, total (the mathematical reading of the
traversal; related to the source `BST::in_order` below). -/
def elistB : BTree → List Int
  | .nil => []
  | .node l d r => elistB l ++ d :: elistB r

/-- In-order list of an `AVL` tree, total. -/
def elistA : ATree → List Int
  | .nil => []
  | .node l d _ r => elistA l ++ d :: elistA r

/-- A public mutating operation of either tree class. -/
inductive Op where
  | ins (v : Int) : Op
  | del (v : Int) : Op

/-- Applies one public operation to a `BST` tree. -/
def stepB (t : BTree) : Op → BTree
  | .ins v => (BST.insert t v).2
  | .del v => (BST.remove t v).2

/-- Applies a sequence of public operations to the initially empty `BST`. -/
def runB (ops : List Op) : BTree := ops.foldl stepB .nil

/-- Applies one public operation to an `AVL` tree. -/
def stepA (t : ATree) : Op → ATree
  | .ins v => (AVL.insert t v).2
  | .del v => (AVL.remove t v).2

/-- Applies a sequence of public operations to the initially empty `AVL`
tree. -/
def runA (ops : List Op) : ATree := ops.foldl stepA .nil

/-- Inserts a list of values, left to right, into the empty `BST`. -/
def bstInserts (vs : List Int) : BTree := vs.foldl (fun t v => (BST.insert t v).2) .nil

/-- Inserts a list of values, left to right, into the empty `AVL` tree. -/
def avlInserts (vs : List Int) : ATree := vs.foldl (fun t v => (AVL.insert t v).2) .nil

/-- The three invariants of reachable `AVL` states (spec §3): search-tree
property, correct cached heights, and the AVL balance property. -/
def AvlInv (t : ATree) : Prop :=
  orderedA t = true ∧ heightOk t = true ∧ balancedP t

/-! ## Basic characterizations (BST side) -/

theorem memB_node {l r : BTree} {d x : Int} :
    memB (.node l d r) x = true ↔ x = d ∨ memB l x = true ∨ memB r x = true := by
  simp [memB, Bool.or_eq_true, beq_iff_eq, or_assoc]

theorem allLtB_iff {t : BTree} {b : Int} :
    allLtB t b = true ↔ ∀ x, memB t x = true → x < b := by
  induction t with
  | nil => simp [allLtB, memB]
  | node l d r ihl ihr =>
    simp only [allLtB, Bool.and_eq_true, decide_eq_true_eq, ihl, ihr]
    constructor
    · rintro ⟨⟨hd, hl⟩, hr⟩ x hx
      rcases memB_node.mp hx with rfl | h | h
      · exact hd
      · exact hl x h
      · exact hr x h
    · intro h
      refine ⟨⟨h d (memB_node.mpr (Or.inl rfl)), fun x hx => ?_⟩, fun x hx => ?_⟩
      · exact h x (memB_node.mpr (Or.inr (Or.inl hx)))
      · exact h x (memB_node.mpr (Or.inr (Or.inr hx)))

theorem allGtB_iff {t : BTree} {b : Int} :
    allGtB t b = true ↔ ∀ x, memB t x = true → b < x := by
  induction t with
  | nil => simp [allGtB, memB]
  | node l d r ihl ihr =>
    simp only [allGtB, Bool.and_eq_true, decide_eq_true_eq, ihl, ihr]
    constructor
    · rintro ⟨⟨hd, hl⟩, hr⟩ x hx
      rcases memB_node.mp hx with rfl | h | h
      · exact hd
      · exact hl x h
      · exact hr x h
    · intro h
      refine ⟨⟨h d (memB_node.mpr (Or.inl rfl)), fun x hx => ?_⟩, fun x hx => ?_⟩
      · exact h x (memB_node.mpr (Or.inr (Or.inl hx)))
      · exact h x (memB_node.mpr (Or.inr (Or.inr hx)))

theorem orderedB_node {l r : BTree} {d : Int} :
    orderedB (.node l d r) = true ↔
      allLtB l d = true ∧ allGtB r d = true ∧ orderedB l = true ∧ orderedB r = true := by
  simp [orderedB, Bool.and_eq_true, and_assoc]

/-! ## Equation lemmas for the BST operations -/

theorem BST.insert_lt {l r : BTree} {d v : Int} (h : v < d) :
    BST.insert (.node l d r) v = ((BST.insert l v).1, .node (BST.insert l v).2 d r) := by
  simp [BST.insert, h]

theorem BST.insert_gt {l r : BTree} {d v : Int} (h1 : ¬ v < d) (h2 : d < v) :
    BST.insert (.node l d r) v = ((BST.insert r v).1, .node l d (BST.insert r v).2) := by
  simp [BST.insert, h1, h2]

theorem BST.insert_found {l r : BTree} {d v : Int} (h1 : ¬ v < d) (h2 : ¬ d < v) :
    BST.insert (.node l d r) v = (false, .node l d r) := by
  simp [BST.insert, h1, h2]

theorem BST.contain_lt {l r : BTree} {d v : Int} (h : v < d) :
    BST.contain (.node l d r) v = BST.contain l v := by
  simp [BST.contain, h]

theorem BST.contain_gt {l r : BTree} {d v : Int} (h1 : ¬ v < d) (h2 : d < v) :
    BST.contain (.node l d r) v = BST.contain r v := by
  simp [BST.contain, h1, h2]

theorem BST.contain_found {l r : BTree} {d v : Int} (h1 : ¬ v < d) (h2 : ¬ d < v) :
    BST.contain (.node l d r) v = true := by
  simp [BST.contain, h1, h2]

theorem BST.remove_lt {l r : BTree} {d v : Int} (h : v < d) :
    BST.remove (.node l d r) v = ((BST.remove l v).1, .node (BST.remove l v).2 d r) := by
  rw [BST.remove.eq_def]; simp [h]

theorem BST.remove_gt {l r : BTree} {d v : Int} (h1 : ¬ v < d) (h2 : d < v) :
    BST.remove (.node l d r) v = ((BST.remove r v).1, .node l d (BST.remove r v).2) := by
  rw [BST.remove.eq_def]; simp [h1, h2]

theorem BST.remove_found_leaf {d v : Int} (h1 : ¬ v < d) (h2 : ¬ d < v) :
    BST.remove (.node .nil d .nil) v = (true, .nil) := by
  simp [BST.remove, h1, h2]

theorem BST.remove_found_right {rl rr : BTree} {d rd v : Int} (h1 : ¬ v < d) (h2 : ¬ d < v) :
    BST.remove (.node .nil d (.node rl rd rr)) v = (true, .node rl rd rr) := by
  simp [BST.remove, h1, h2]

theorem BST.remove_found_left {ll lr : BTree} {d ld v : Int} (h1 : ¬ v < d) (h2 : ¬ d < v) :
    BST.remove (.node (.node ll ld lr) d .nil) v = (true, .node ll ld lr) := by
  simp [BST.remove, h1, h2]

theorem BST.remove_found_two {ll lr rl rr : BTree} {d ld rd v : Int}
    (h1 : ¬ v < d) (h2 : ¬ d < v) :
    BST.remove (.node (.node ll ld lr) d (.node rl rd rr)) v =
      ((BST.remove (.node ll ld lr) (BST.nodeMax ll ld lr)).1,
       .node (BST.remove (.node ll ld lr) (BST.nodeMax ll ld lr)).2
         (BST.nodeMax ll ld lr) (.node rl rd rr)) := by
  simp [BST.remove, h1, h2]

/-! ## BST: lookup agrees with structural membership on ordered trees -/

theorem contain_eq_memB {t : BTree} (ho : orderedB t = true) :
    ∀ v, BST.contain t v = memB t v := by
  induction t with
  | nil => intro v; rfl
  | node l d r ihl ihr =>
    intro v
    rcases orderedB_node.mp ho with ⟨hlt, hgt, hol, hor⟩
    by_cases h1 : v < d
    · rw [BST.contain_lt h1, ihl hol]
      have hr : memB r v = false := by
        cases hm : memB r v
        · rfl
        · exact absurd (allGtB_iff.mp hgt v hm) (by omega)
      have hd : (v == d) = false := by simp; omega
      simp [memB, hr, hd]
    · by_cases h2 : d < v
      · rw [BST.contain_gt h1 h2, ihr hor]
        have hl2 : memB l v = false := by
          cases hm : memB l v
          · rfl
          · exact absurd (allLtB_iff.mp hlt v hm) (by omega)
        have hd : (v == d) = false := by simp; omega
        simp [memB, hl2, hd]
      · rw [BST.contain_found h1 h2]
        have : v = d := by omega
        simp [memB, this]

/-! ## BST: insertion -/

theorem bst_insert_fst (t : BTree) (v : Int) :
    (BST.insert t v).1 = !BST.contain t v := by
  induction t with
  | nil => rfl
  | node l d r ihl ihr =>
    by_cases h1 : v < d
    · rw [BST.insert_lt h1, BST.contain_lt h1]; exact ihl
    · by_cases h2 : d < v
      · rw [BST.insert_gt h1 h2, BST.contain_gt h1 h2]; exact ihr
      · rw [BST.insert_found h1 h2, BST.contain_found h1 h2]; rfl

theorem bst_insert_of_contain {t : BTree} {v : Int} (hc : BST.contain t v = true) :
    BST.insert t v = (false, t) := by
  induction t with
  | nil => exact absurd hc (by simp [BST.contain])
  | node l d r ihl ihr =>
    by_cases h1 : v < d
    · rw [BST.contain_lt h1] at hc
      rw [BST.insert_lt h1, ihl hc]
    · by_cases h2 : d < v
      · rw [BST.contain_gt h1 h2] at hc
        rw [BST.insert_gt h1 h2, ihr hc]
      · exact BST.insert_found h1 h2

theorem bst_insert_mem (t : BTree) (v : Int) :
    ∀ x, memB (BST.insert t v).2 x = true ↔ (memB t x = true ∨ x = v) := by
  induction t with
  | nil =>
    intro x
    simp [BST.insert, memB_node, memB]
  | node l d r ihl ihr =>
    intro x
    by_cases h1 : v < d
    · rw [BST.insert_lt h1]
      simp only [memB_node, ihl]
      tauto
    · by_cases h2 : d < v
      · rw [BST.insert_gt h1 h2]
        simp only [memB_node, ihr]
        tauto
      · rw [BST.insert_found h1 h2]
        have : v = d := by omega
        subst this
        simp only [memB_node]
        tauto

theorem bst_insert_allLt {t : BTree} {v b : Int} (ha : allLtB t b = true) (hv : v < b) :
    allLtB (BST.insert t v).2 b = true := by
  rw [allLtB_iff]
  intro x hx
  rcases (bst_insert_mem t v x).mp hx with h | rfl
  · exact allLtB_iff.mp ha x h
  · exact hv

theorem bst_insert_allGt {t : BTree} {v b : Int} (ha : allGtB t b = true) (hv : b < v) :
    allGtB (BST.insert t v).2 b = true := by
  rw [allGtB_iff]
  intro x hx
  rcases (bst_insert_mem t v x).mp hx with h | rfl
  · exact allGtB_iff.mp ha x h
  · exact hv

theorem bst_insert_ordered {t : BTree} (ho : orderedB t = true) (v : Int) :
    orderedB (BST.insert t v).2 = true := by
  induction t with
  | nil => simp [BST.insert, orderedB, allLtB, allGtB]
  | node l d r ihl ihr =>
    rcases orderedB_node.mp ho with ⟨hlt, hgt, hol, hor⟩
    by_cases h1 : v < d
    · rw [BST.insert_lt h1]
      exact orderedB_node.mpr ⟨bst_insert_allLt hlt h1, hgt, ihl hol, hor⟩
    · by_cases h2 : d < v
      · rw [BST.insert_gt h1 h2]
        exact orderedB_node.mpr ⟨hlt, bst_insert_allGt hgt h2, hol, ihr hor⟩
      · rw [BST.insert_found h1 h2]
        exact ho

/-! ## BST: the in-order predecessor helper -/

theorem nodeMaxB_mem : ∀ (ll : BTree) (d : Int) (lr : BTree),
    memB (.node ll d lr) (BST.nodeMax ll d lr) = true := by
  intro ll d lr
  induction lr generalizing ll d with
  | nil => simp [BST.nodeMax, memB_node]
  | node rl rd rr ih_rl ih_rr =>
    have : BST.nodeMax ll d (.node rl rd rr) = BST.nodeMax rl rd rr := by
      simp [BST.nodeMax]
    rw [this]
    exact memB_node.mpr (Or.inr (Or.inr (ih_rr rl rd)))

theorem nodeMaxB_ub : ∀ (ll : BTree) (d : Int) (lr : BTree),
    orderedB (.node ll d lr) = true →
    ∀ x, memB (.node ll d lr) x = true → x ≤ BST.nodeMax ll d lr := by
  intro ll d lr
  induction lr generalizing ll d with
  | nil =>
    intro ho x hx
    rcases orderedB_node.mp ho with ⟨hlt, _, _, _⟩
    rcases memB_node.mp hx with rfl | h | h
    · simp [BST.nodeMax]
    · have := allLtB_iff.mp hlt x h
      simp [BST.nodeMax]; omega
    · simp [memB] at h
  | node rl rd rr ih_rl ih_rr =>
    intro ho x hx
    rcases orderedB_node.mp ho with ⟨hlt, hgt, hol, hor⟩
    have hmax : BST.nodeMax ll d (.node rl rd rr) = BST.nodeMax rl rd rr := by
      simp [BST.nodeMax]
    rw [hmax]
    have hmem_m : memB (.node rl rd rr) (BST.nodeMax rl rd rr) = true := nodeMaxB_mem rl rd rr
    have hd_lt_m : d < BST.nodeMax rl rd rr := allGtB_iff.mp hgt _ hmem_m
    rcases memB_node.mp hx with rfl | h | h
    · omega
    · have := allLtB_iff.mp hlt x h
      omega
    · exact ih_rr rl rd hor x h

/-! ## BST: removal -/

theorem BST.remove_nil {v : Int} : BST.remove .nil v = (false, .nil) := by
  simp [BST.remove]

theorem bst_remove_not_contain {t : BTree} {v : Int} (hc : BST.contain t v = false) :
    BST.remove t v = (false, t) := by
  induction t with
  | nil => exact BST.remove_nil
  | node l d r ihl ihr =>
    by_cases h1 : v < d
    · rw [BST.contain_lt h1] at hc
      rw [BST.remove_lt h1, ihl hc]
    · by_cases h2 : d < v
      · rw [BST.contain_gt h1 h2] at hc
        rw [BST.remove_gt h1 h2, ihr hc]
      · rw [BST.contain_found h1 h2] at hc
        exact absurd hc (by simp)

theorem bst_remove_good {t : BTree} (ho : orderedB t = true) : ∀ v : Int,
    orderedB (BST.remove t v).2 = true ∧
    (∀ x, memB (BST.remove t v).2 x = true ↔ (memB t x = true ∧ x ≠ v)) := by
  induction t with
  | nil =>
    intro v
    rw [BST.remove_nil]
    exact ⟨rfl, fun x => by simp [memB]⟩
  | node l d r ihl ihr =>
    intro v
    rcases orderedB_node.mp ho with ⟨hlt, hgt, hol, hor⟩
    by_cases h1 : v < d
    · rw [BST.remove_lt h1]
      rcases ihl hol v with ⟨ho', hm'⟩
      constructor
      · refine orderedB_node.mpr ⟨?_, hgt, ho', hor⟩
        rw [allLtB_iff]
        intro x hx
        exact allLtB_iff.mp hlt x ((hm' x).mp hx).1
      · intro x
        constructor
        · intro hx
          rcases memB_node.mp hx with rfl | hL | hR
          · exact ⟨memB_node.mpr (Or.inl rfl), by omega⟩
          · rcases (hm' x).mp hL with ⟨h, hne⟩
            exact ⟨memB_node.mpr (Or.inr (Or.inl h)), hne⟩
          · have := allGtB_iff.mp hgt x hR
            exact ⟨memB_node.mpr (Or.inr (Or.inr hR)), by omega⟩
        · rintro ⟨hx, hne⟩
          rcases memB_node.mp hx with rfl | h | h
          · exact memB_node.mpr (Or.inl rfl)
          · exact memB_node.mpr (Or.inr (Or.inl ((hm' x).mpr ⟨h, hne⟩)))
          · exact memB_node.mpr (Or.inr (Or.inr h))
    · by_cases h2 : d < v
      · rw [BST.remove_gt h1 h2]
        rcases ihr hor v with ⟨ho', hm'⟩
        constructor
        · refine orderedB_node.mpr ⟨hlt, ?_, hol, ho'⟩
          rw [allGtB_iff]
          intro x hx
          exact allGtB_iff.mp hgt x ((hm' x).mp hx).1
        · intro x
          constructor
          · intro hx
            rcases memB_node.mp hx with rfl | hL | hR
            · exact ⟨memB_node.mpr (Or.inl rfl), by omega⟩
            · have := allLtB_iff.mp hlt x hL
              exact ⟨memB_node.mpr (Or.inr (Or.inl hL)), by omega⟩
            · rcases (hm' x).mp hR with ⟨h, hne⟩
              exact ⟨memB_node.mpr (Or.inr (Or.inr h)), hne⟩
          · rintro ⟨hx, hne⟩
            rcases memB_node.mp hx with rfl | h | h
            · exact memB_node.mpr (Or.inl rfl)
            · exact memB_node.mpr (Or.inr (Or.inl h))
            · exact memB_node.mpr (Or.inr (Or.inr ((hm' x).mpr ⟨h, hne⟩)))
      · have hvd : v = d := by omega
        subst hvd
        match l, r, hlt, hgt, hol, hor with
        | .nil, .nil, _, _, _, _ =>
          rw [BST.remove_found_leaf h1 h2]
          exact ⟨rfl, fun x => by simp [memB, memB_node]⟩
        | .nil, .node rl rd rr, hlt, hgt, hol, hor =>
          rw [BST.remove_found_right h1 h2]
          refine ⟨hor, fun x => ?_⟩
          constructor
          · intro hx
            have := allGtB_iff.mp hgt x hx
            exact ⟨memB_node.mpr (Or.inr (Or.inr hx)), by omega⟩
          · rintro ⟨hx, hne⟩
            rcases memB_node.mp hx with rfl | h | h
            · omega
            · simp [memB] at h
            · exact h
        | .node ll ld lr, .nil, hlt, hgt, hol, hor =>
          rw [BST.remove_found_left h1 h2]
          refine ⟨hol, fun x => ?_⟩
          constructor
          · intro hx
            have := allLtB_iff.mp hlt x hx
            exact ⟨memB_node.mpr (Or.inr (Or.inl hx)), by omega⟩
          · rintro ⟨hx, hne⟩
            rcases memB_node.mp hx with rfl | h | h
            · omega
            · exact h
            · simp [memB] at h
        | .node ll ld lr, .node rl rd rr, hlt, hgt, hol, hor =>
          rw [BST.remove_found_two h1 h2]
          rcases ihl hol (BST.nodeMax ll ld lr) with ⟨ho', hm'⟩
          have hm_mem : memB (.node ll ld lr) (BST.nodeMax ll ld lr) = true :=
            nodeMaxB_mem ll ld lr
          have hm_lt_d : BST.nodeMax ll ld lr < v := allLtB_iff.mp hlt _ hm_mem
          have hm_ub := nodeMaxB_ub ll ld lr hol
          constructor
          · refine orderedB_node.mpr ⟨?_, ?_, ho', hor⟩
            · rw [allLtB_iff]
              intro x hx
              rcases (hm' x).mp hx with ⟨hxl, hne⟩
              have := hm_ub x hxl
              omega
            · rw [allGtB_iff]
              intro x hx
              have := allGtB_iff.mp hgt x hx
              omega
          · intro x
            constructor
            · intro hx
              rcases memB_node.mp hx with rfl | hL | hR
              · exact ⟨memB_node.mpr (Or.inr (Or.inl hm_mem)), by omega⟩
              · rcases (hm' x).mp hL with ⟨h, hne⟩
                have := allLtB_iff.mp hlt x h
                exact ⟨memB_node.mpr (Or.inr (Or.inl h)), by omega⟩
              · have := allGtB_iff.mp hgt x hR
                exact ⟨memB_node.mpr (Or.inr (Or.inr hR)), by omega⟩
            · rintro ⟨hx, hne⟩
              rcases memB_node.mp hx with rfl | h | h
              · omega
              · by_cases hxm : x = BST.nodeMax ll ld lr
                · exact memB_node.mpr (Or.inl hxm)
                · exact memB_node.mpr (Or.inr (Or.inl ((hm' x).mpr ⟨h, hxm⟩)))
              · exact memB_node.mpr (Or.inr (Or.inr h))

theorem bst_remove_fst {t : BTree} (ho : orderedB t = true) :
    ∀ v : Int, (BST.remove t v).1 = BST.contain t v := by
  induction t with
  | nil => intro v; rw [BST.remove_nil]; rfl
  | node l d r ihl ihr =>
    intro v
    rcases orderedB_node.mp ho with ⟨hlt, hgt, hol, hor⟩
    by_cases h1 : v < d
    · rw [BST.remove_lt h1, BST.contain_lt h1]; exact ihl hol v
    · by_cases h2 : d < v
      · rw [BST.remove_gt h1 h2, BST.contain_gt h1 h2]; exact ihr hor v
      · rw [BST.contain_found h1 h2]
        match l, r, hlt, hol with
        | .nil, .nil, _, _ => rw [BST.remove_found_leaf h1 h2]
        | .nil, .node rl rd rr, _, _ => rw [BST.remove_found_right h1 h2]
        | .node ll ld lr, .nil, _, _ => rw [BST.remove_found_left h1 h2]
        | .node ll ld lr, .node rl rd rr, hlt, hol =>
          rw [BST.remove_found_two h1 h2]
          have hm_mem : memB (.node ll ld lr) (BST.nodeMax ll ld lr) = true :=
            nodeMaxB_mem ll ld lr
          rw [ihl hol (BST.nodeMax ll ld lr), contain_eq_memB hol, hm_mem]

theorem bst_remove_size {t : BTree} (ho : orderedB t = true) :
    ∀ v : Int, BST.contain t v = true → sizeB (BST.remove t v).2 + 1 = sizeB t := by
  induction t with
  | nil => intro v hc; exact absurd hc (by simp [BST.contain])
  | node l d r ihl ihr =>
    intro v hc
    rcases orderedB_node.mp ho with ⟨hlt, hgt, hol, hor⟩
    by_cases h1 : v < d
    · rw [BST.contain_lt h1] at hc
      rw [BST.remove_lt h1]
      have := ihl hol v hc
      simp only [sizeB]
      omega
    · by_cases h2 : d < v
      · rw [BST.contain_gt h1 h2] at hc
        rw [BST.remove_gt h1 h2]
        have := ihr hor v hc
        simp only [sizeB]
        omega
      · match l, r, hlt, hol with
        | .nil, .nil, _, _ =>
          rw [BST.remove_found_leaf h1 h2]
          simp [sizeB]
        | .nil, .node rl rd rr, _, _ =>
          rw [BST.remove_found_right h1 h2]
          simp [sizeB]
        | .node ll ld lr, .nil, _, _ =>
          rw [BST.remove_found_left h1 h2]
          simp [sizeB]
        | .node ll ld lr, .node rl rd rr, hlt, hol =>
          rw [BST.remove_found_two h1 h2]
          have hm_mem : memB (.node ll ld lr) (BST.nodeMax ll ld lr) = true :=
            nodeMaxB_mem ll ld lr
          have hc' : BST.contain (.node ll ld lr) (BST.nodeMax ll ld lr) = true := by
            rw [contain_eq_memB hol]; exact hm_mem
          have := ihl hol (BST.nodeMax ll ld lr) hc'
          simp only [sizeB] at this ⊢
          omega

/-! ## BST: sorted in-order traversal -/

theorem elistB_mem : ∀ (t : BTree) (x : Int), x ∈ elistB t ↔ memB t x = true := by
  intro t
  induction t with
  | nil => intro x; simp [elistB, memB]
  | node l d r ihl ihr =>
    intro x
    simp [elistB, memB_node, ihl, ihr]
    tauto

theorem bst_sorted {t : BTree} (ho : orderedB t = true) :
    List.Pairwise (· < ·) (elistB t) := by
  induction t with
  | nil => exact List.Pairwise.nil
  | node l d r ihl ihr =>
    rcases orderedB_node.mp ho with ⟨hlt, hgt, hol, hor⟩
    rw [elistB, List.pairwise_append]
    refine ⟨ihl hol, ?_, ?_⟩
    · rw [List.pairwise_cons]
      refine ⟨fun y hy => allGtB_iff.mp hgt y ((elistB_mem r y).mp hy), ihr hor⟩
    · intro a ha b hb
      have ha' := allLtB_iff.mp hlt a ((elistB_mem l a).mp ha)
      rcases List.mem_cons.mp hb with rfl | hb'
      · exact ha'
      · have := allGtB_iff.mp hgt b ((elistB_mem r b).mp hb')
        omega

theorem inOrderNode_eq_aux : ∀ (n : Nat) (l : BTree) (d : Int) (r : BTree),
    sizeB l + sizeB r ≤ n → BST.inOrderNode l d r = elistB l ++ d :: elistB r := by
  intro n
  induction n with
  | zero =>
    intro l d r hle
    match l, r, hle with
    | .nil, .nil, _ => rw [BST.inOrderNode.eq_def]; simp [elistB]
    | .nil, .node _ _ _, hle => simp [sizeB] at hle
    | .node _ _ _, _, hle => simp [sizeB] at hle
  | succ n ih =>
    intro l d r hle
    rw [BST.inOrderNode.eq_def]
    match l, r, hle with
    | .nil, .nil, _ => simp [elistB]
    | .nil, .node a b c, hle =>
      have : sizeB a + sizeB c ≤ n := by simp [sizeB] at hle ⊢; omega
      simp only [elistB]
      rw [ih a b c this]
      simp [elistB]
    | .node a b c, .nil, hle =>
      have : sizeB a + sizeB c ≤ n := by simp [sizeB] at hle ⊢; omega
      simp only [elistB]
      rw [ih a b c this]
      simp [elistB]
    | .node a b c, .node a2 b2 c2, hle =>
      have h1 : sizeB a + sizeB c ≤ n := by simp [sizeB] at hle ⊢; omega
      have h2 : sizeB a2 + sizeB c2 ≤ n := by simp [sizeB] at hle ⊢; omega
      simp only [elistB]
      rw [ih a b c h1, ih a2 b2 c2 h2]
      simp [elistB]

theorem inOrderNode_eq (l : BTree) (d : Int) (r : BTree) :
    BST.inOrderNode l d r = elistB l ++ d :: elistB r :=
  inOrderNode_eq_aux (sizeB l + sizeB r) l d r le_rfl

theorem bst_in_order_eq {l r : BTree} {d : Int} :
    BST.in_order (.node l d r) = some (elistB (.node l d r)) := by
  rw [BST.in_order, inOrderNode_eq]
  rfl

/-! ## Basic characterizations (AVL side) -/

theorem memA_node {l r : ATree} {d h x : Int} :
    memA (.node l d h r) x = true ↔ x = d ∨ memA l x = true ∨ memA r x = true := by
  simp [memA, Bool.or_eq_true, beq_iff_eq, or_assoc]

theorem allLtA_iff {t : ATree} {b : Int} :
    allLtA t b = true ↔ ∀ x, memA t x = true → x < b := by
  induction t with
  | nil => simp [allLtA, memA]
  | node l d h r ihl ihr =>
    simp only [allLtA, Bool.and_eq_true, decide_eq_true_eq, ihl, ihr]
    constructor
    · rintro ⟨⟨hd, hl⟩, hr⟩ x hx
      rcases memA_node.mp hx with rfl | hh | hh
      · exact hd
      · exact hl x hh
      · exact hr x hh
    · intro hh
      refine ⟨⟨hh d (memA_node.mpr (Or.inl rfl)), fun x hx => ?_⟩, fun x hx => ?_⟩
      · exact hh x (memA_node.mpr (Or.inr (Or.inl hx)))
      · exact hh x (memA_node.mpr (Or.inr (Or.inr hx)))

theorem allGtA_iff {t : ATree} {b : Int} :
    allGtA t b = true ↔ ∀ x, memA t x = true → b < x := by
  induction t with
  | nil => simp [allGtA, memA]
  | node l d h r ihl ihr =>
    simp only [allGtA, Bool.and_eq_true, decide_eq_true_eq, ihl, ihr]
    constructor
    · rintro ⟨⟨hd, hl⟩, hr⟩ x hx
      rcases memA_node.mp hx with rfl | hh | hh
      · exact hd
      · exact hl x hh
      · exact hr x hh
    · intro hh
      refine ⟨⟨hh d (memA_node.mpr (Or.inl rfl)), fun x hx => ?_⟩, fun x hx => ?_⟩
      · exact hh x (memA_node.mpr (Or.inr (Or.inl hx)))
      · exact hh x (memA_node.mpr (Or.inr (Or.inr hx)))

theorem orderedA_node {l r : ATree} {d h : Int} :
    orderedA (.node l d h r) = true ↔
      allLtA l d = true ∧ allGtA r d = true ∧ orderedA l = true ∧ orderedA r = true := by
  simp [orderedA, Bool.and_eq_true, and_assoc]

theorem heightOk_node {l r : ATree} {d h : Int} :
    heightOk (.node l d h r) = true ↔
      h = 1 + max (rheight l) (rheight r) ∧ heightOk l = true ∧ heightOk r = true := by
  simp [heightOk, Bool.and_eq_true, decide_eq_true_eq, and_assoc]

theorem rheight_ge (t : ATree) : -1 ≤ rheight t := by
  induction t with
  | nil => simp [rheight]
  | node l d h r ihl ihr => simp only [rheight]; omega

theorem height_eq_rheight {t : ATree} (hk : heightOk t = true) :
    AVL.height t = rheight t := by
  cases t with
  | nil => rfl
  | node l d h r =>
    rcases heightOk_node.mp hk with ⟨h1, _, _⟩
    simp [AVL.height, rheight, h1]

theorem contain_eq_memA {t : ATree} (ho : orderedA t = true) :
    ∀ v, AVL.contain t v = memA t v := by
  induction t with
  | nil => intro v; rfl
  | node l d h r ihl ihr =>
    intro v
    rcases orderedA_node.mp ho with ⟨hlt, hgt, hol, hor⟩
    by_cases h1 : v < d
    · have hr : memA r v = false := by
        cases hm : memA r v
        · rfl
        · exact absurd (allGtA_iff.mp hgt v hm) (by omega)
      have hd : (v == d) = false := by simp; omega
      simp [AVL.contain, h1, ihl hol, memA, hr, hd]
    · by_cases h2 : d < v
      · have hl2 : memA l v = false := by
          cases hm : memA l v
          · rfl
          · exact absurd (allLtA_iff.mp hlt v hm) (by omega)
        have hd : (v == d) = false := by simp; omega
        simp [AVL.contain, h1, h2, ihr hor, memA, hl2, hd]
      · have : v = d := by omega
        simp [AVL.contain, h1, h2, memA, this]

theorem allLtA_node {l r : ATree} {d h b : Int} :
    allLtA (.node l d h r) b = true ↔
      d < b ∧ allLtA l b = true ∧ allLtA r b = true := by
  simp [allLtA, Bool.and_eq_true, decide_eq_true_eq, and_assoc]

theorem allGtA_node {l r : ATree} {d h b : Int} :
    allGtA (.node l d h r) b = true ↔
      b < d ∧ allGtA l b = true ∧ allGtA r b = true := by
  simp [allGtA, Bool.and_eq_true, decide_eq_true_eq, and_assoc]

theorem allGtA_mono {t : ATree} {b b' : Int} (h : allGtA t b = true) (hb : b' ≤ b) :
    allGtA t b' = true := by
  rw [allGtA_iff] at h ⊢
  intro x hx
  have := h x hx
  omega

theorem allLtA_mono {t : ATree} {b b' : Int} (h : allLtA t b = true) (hb : b ≤ b') :
    allLtA t b' = true := by
  rw [allLtA_iff] at h ⊢
  intro x hx
  have := h x hx
  omega

/-! ## Rotations preserve membership and order -/

theorem memA_rotateRight (t : ATree) (x : Int) :
    memA (AVL.rotateRight t) x = memA t x := by
  match t with
  | .nil => rfl
  | .node .nil d h r => rfl
  | .node (.node ll ld lh lr) d h r =>
    simp [AVL.rotateRight, memA, Bool.or_assoc, Bool.or_comm, Bool.or_left_comm]

theorem memA_rotateLeft (t : ATree) (x : Int) :
    memA (AVL.rotateLeft t) x = memA t x := by
  match t with
  | .nil => rfl
  | .node l d h .nil => rfl
  | .node l d h (.node rl rd rh rr) =>
    simp [AVL.rotateLeft, memA, Bool.or_assoc, Bool.or_comm, Bool.or_left_comm]

theorem orderedA_rotateRight {t : ATree} (ho : orderedA t = true) :
    orderedA (AVL.rotateRight t) = true := by
  match t with
  | .nil => exact ho
  | .node .nil d h r => exact ho
  | .node (.node ll ld lh lr) d h r =>
    rcases orderedA_node.mp ho with ⟨hlt, hgt, hol, hor⟩
    rcases allLtA_node.mp hlt with ⟨hld, hll, hlr⟩
    rcases orderedA_node.mp hol with ⟨hlt2, hgt2, holl, holr⟩
    show orderedA (.node ll ld _ (.node lr d _ r)) = true
    refine orderedA_node.mpr ⟨hlt2, ?_, holl, ?_⟩
    · exact allGtA_node.mpr ⟨hld, hgt2, allGtA_mono hgt (le_of_lt hld)⟩
    · exact orderedA_node.mpr ⟨hlr, hgt, holr, hor⟩

theorem orderedA_rotateLeft {t : ATree} (ho : orderedA t = true) :
    orderedA (AVL.rotateLeft t) = true := by
  match t with
  | .nil => exact ho
  | .node l d h .nil => exact ho
  | .node l d h (.node rl rd rh rr) =>
    rcases orderedA_node.mp ho with ⟨hlt, hgt, hol, hor⟩
    rcases allGtA_node.mp hgt with ⟨hrd, hrl, hrr⟩
    rcases orderedA_node.mp hor with ⟨hlt2, hgt2, horl, horr⟩
    show orderedA (.node (.node l d _ rl) rd _ rr) = true
    refine orderedA_node.mpr ⟨?_, hgt2, ?_, horr⟩
    · exact allLtA_node.mpr ⟨hrd, allLtA_mono hlt (le_of_lt hrd), hlt2⟩
    · exact orderedA_node.mpr ⟨hlt, hrl, hol, horl⟩

/-! ## The balance maintainer preserves membership and order -/

theorem memA_balance (t : ATree) (x : Int) :
    memA (AVL.balance t) x = memA t x := by
  cases t with
  | nil => rfl
  | node l d h r =>
    cases l with
    | nil =>
      cases r with
      | nil => simp [AVL.balance, memA]
      | node rl rd rh rr =>
        simp only [AVL.balance]
        split_ifs <;>
          simp [memA_rotateLeft, memA_rotateRight, memA,
            Bool.or_assoc, Bool.or_comm, Bool.or_left_comm]
    | node ll ld lh lr =>
      cases r with
      | nil =>
        simp only [AVL.balance]
        split_ifs <;>
          simp [memA_rotateLeft, memA_rotateRight, memA,
            Bool.or_assoc, Bool.or_comm, Bool.or_left_comm]
      | node rl rd rh rr =>
        simp only [AVL.balance]
        split_ifs <;>
          simp [memA_rotateLeft, memA_rotateRight, memA,
            Bool.or_assoc, Bool.or_comm, Bool.or_left_comm]

theorem orderedA_cache_irrel {l r : ATree} {d h h' : Int} :
    orderedA (.node l d h r) = orderedA (.node l d h' r) := rfl

theorem orderedA_balance {l r : ATree} {d h : Int}
    (ho : orderedA (.node l d h r) = true) :
    orderedA (AVL.balance (.node l d h r)) = true := by
  rcases orderedA_node.mp ho with ⟨hlt, hgt, hol, hor⟩
  cases l with
  | nil =>
    cases r with
    | nil => simpa [AVL.balance] using ho
    | node rl rd rh rr =>
      simp only [AVL.balance]
      split_ifs
      · exact orderedA_node.mpr ⟨hlt, hgt, hol, hor⟩
      · exact orderedA_rotateLeft (orderedA_node.mpr ⟨hlt, hgt, hol, hor⟩)
      · refine orderedA_rotateLeft (orderedA_node.mpr ⟨hlt, ?_, hol, ?_⟩)
        · rw [allGtA_iff]
          intro x hx
          rw [memA_rotateRight] at hx
          exact allGtA_iff.mp hgt x hx
        · exact orderedA_rotateRight hor
      · exact orderedA_node.mpr ⟨hlt, hgt, hol, hor⟩
  | node ll ld lh lr =>
    cases r with
    | nil =>
      simp only [AVL.balance]
      split_ifs
      · exact orderedA_rotateRight (orderedA_node.mpr ⟨hlt, hgt, hol, hor⟩)
      · refine orderedA_rotateRight (orderedA_node.mpr ⟨?_, hgt, ?_, hor⟩)
        · rw [allLtA_iff]
          intro x hx
          rw [memA_rotateLeft] at hx
          exact allLtA_iff.mp hlt x hx
        · exact orderedA_rotateLeft hol
      · exact orderedA_node.mpr ⟨hlt, hgt, hol, hor⟩
      · exact orderedA_node.mpr ⟨hlt, hgt, hol, hor⟩
    | node rl rd rh rr =>
      simp only [AVL.balance]
      split_ifs
      · exact orderedA_rotateRight (orderedA_node.mpr ⟨hlt, hgt, hol, hor⟩)
      · refine orderedA_rotateRight (orderedA_node.mpr ⟨?_, hgt, ?_, hor⟩)
        · rw [allLtA_iff]
          intro x hx
          rw [memA_rotateLeft] at hx
          exact allLtA_iff.mp hlt x hx
        · exact orderedA_rotateLeft hol
      · exact orderedA_rotateLeft (orderedA_node.mpr ⟨hlt, hgt, hol, hor⟩)
      · refine orderedA_rotateLeft (orderedA_node.mpr ⟨hlt, ?_, hol, ?_⟩)
        · rw [allGtA_iff]
          intro x hx
          rw [memA_rotateRight] at hx
          exact allGtA_iff.mp hgt x hx
        · exact orderedA_rotateRight hor
      · exact orderedA_node.mpr ⟨hlt, hgt, hol, hor⟩

/-! ## Shape lemmas for the balance maintainer -/

theorem balancedP_node {l r : ATree} {d h : Int} :
    balancedP (.node l d h r) ↔
      rheight l ≤ rheight r + 1 ∧ rheight r ≤ rheight l + 1 ∧ balancedP l ∧ balancedP r :=
  Iff.rfl

theorem rotR_eq {ll lr r : ATree} {ld lh d h : Int} :
    AVL.rotateRight (.node (.node ll ld lh lr) d h r) =
      .node ll ld (1 + max (AVL.height ll) (1 + max (AVL.height lr) (AVL.height r)))
        (.node lr d (1 + max (AVL.height lr) (AVL.height r)) r) := by
  simp [AVL.rotateRight, AVL.height]

theorem rotL_eq {l rl rr : ATree} {rd rh d h : Int} :
    AVL.rotateLeft (.node l d h (.node rl rd rh rr)) =
      .node (.node l d (1 + max (AVL.height l) (AVL.height rl)) rl) rd
        (1 + max (1 + max (AVL.height l) (AVL.height rl)) (AVL.height rr)) rr := by
  simp [AVL.rotateLeft, AVL.height]

theorem balance_eq_id {l r : ATree} {d h : Int}
    (h1 : ¬ 1 < AVL.height l - AVL.height r)
    (h2 : ¬ AVL.height l - AVL.height r < -1) :
    AVL.balance (.node l d h r) = .node l d (1 + max (AVL.height l) (AVL.height r)) r := by
  cases l <;> cases r <;> simp [AVL.balance, h1, h2]

theorem balance_eq_rr {ll lr r : ATree} {ld lh d h : Int}
    (hbf : 1 < AVL.height (ATree.node ll ld lh lr) - AVL.height r)
    (hg : AVL.height lr ≤ AVL.height ll) :
    AVL.balance (.node (.node ll ld lh lr) d h r) =
      AVL.rotateRight (.node (.node ll ld lh lr) d
        (1 + max (AVL.height (ATree.node ll ld lh lr)) (AVL.height r)) r) := by
  simp [AVL.balance, hbf, hg]

theorem balance_eq_lrr {ll lr r : ATree} {ld lh d h : Int}
    (hbf : 1 < AVL.height (ATree.node ll ld lh lr) - AVL.height r)
    (hg : ¬ AVL.height lr ≤ AVL.height ll) :
    AVL.balance (.node (.node ll ld lh lr) d h r) =
      AVL.rotateRight (.node (AVL.rotateLeft (.node ll ld lh lr)) d
        (1 + max (AVL.height (ATree.node ll ld lh lr)) (AVL.height r)) r) := by
  simp [AVL.balance, hbf, hg]

theorem balance_eq_ll {l rl rr : ATree} {rd rh d h : Int}
    (h1 : ¬ 1 < AVL.height l - AVL.height (ATree.node rl rd rh rr))
    (hbf : AVL.height l - AVL.height (ATree.node rl rd rh rr) < -1)
    (hg : AVL.height rl ≤ AVL.height rr) :
    AVL.balance (.node l d h (.node rl rd rh rr)) =
      AVL.rotateLeft (.node l d
        (1 + max (AVL.height l) (AVL.height (ATree.node rl rd rh rr))) (.node rl rd rh rr)) := by
  simp [AVL.balance, h1, hbf, hg]

theorem balance_eq_rll {l rl rr : ATree} {rd rh d h : Int}
    (h1 : ¬ 1 < AVL.height l - AVL.height (ATree.node rl rd rh rr))
    (hbf : AVL.height l - AVL.height (ATree.node rl rd rh rr) < -1)
    (hg : ¬ AVL.height rl ≤ AVL.height rr) :
    AVL.balance (.node l d h (.node rl rd rh rr)) =
      AVL.rotateLeft (.node l d
        (1 + max (AVL.height l) (AVL.height (ATree.node rl rd rh rr)))
        (AVL.rotateRight (.node rl rd rh rr))) := by
  simp [AVL.balance, h1, hbf, hg]

/-! ## The balance maintainer restores the AVL invariants -/

theorem height_node {l r : ATree} {d h : Int} : AVL.height (.node l d h r) = h := rfl

theorem balance_spec {l r : ATree} (d h : Int)
    (hkl : heightOk l = true) (hkr : heightOk r = true)
    (bl : balancedP l) (br : balancedP r)
    (hd1 : rheight l ≤ rheight r + 2) (hd2 : rheight r ≤ rheight l + 2) :
    heightOk (AVL.balance (.node l d h r)) = true ∧
    balancedP (AVL.balance (.node l d h r)) ∧
    (rheight (AVL.balance (.node l d h r)) = 1 + max (rheight l) (rheight r) ∨
     ((rheight l - rheight r = 2 ∨ rheight r - rheight l = 2) ∧
      rheight (AVL.balance (.node l d h r)) = max (rheight l) (rheight r))) := by
  have el : AVL.height l = rheight l := height_eq_rheight hkl
  have er : AVL.height r = rheight r := height_eq_rheight hkr
  by_cases h1 : 1 < AVL.height l - AVL.height r
  · -- left-heavy by exactly 2
    have hlge : 0 ≤ rheight l := by have := rheight_ge r; omega
    match l, hkl, bl, el, hd1, hd2, hlge, h1 with
    | .node ll ld lh lr, hkl, bl, el, hd1, hd2, _, h1 =>
      rcases heightOk_node.mp hkl with ⟨hlh, hkll, hklr⟩
      rcases bl with ⟨bL1, bL2, bll, blr⟩
      have ell : AVL.height ll = rheight ll := height_eq_rheight hkll
      have elr : AVL.height lr = rheight lr := height_eq_rheight hklr
      rw [er] at h1
      rw [height_node] at h1
      simp only [rheight] at hd1 hd2
      by_cases hg : AVL.height lr ≤ AVL.height ll
      · rw [balance_eq_rr (by rw [height_node, er, hlh]; omega) hg, rotR_eq, ell, elr, er]
        rw [ell, elr] at hg
        refine ⟨?_, ?_, ?_⟩
        · refine heightOk_node.mpr ⟨?_, hkll, heightOk_node.mpr ⟨?_, hklr, hkr⟩⟩ <;>
            simp [rheight]
        · simp only [balancedP_node, rheight]
          refine ⟨?_, ?_, bll, ?_, ?_, blr, br⟩ <;> omega
        · simp only [rheight]
          omega
      · -- left-right double rotation: `lr` is non-null
        rw [elr, ell] at hg
        have hlrge : 0 ≤ rheight lr := by have := rheight_ge ll; omega
        match lr, hklr, blr, hg, hlrge, hlh, hd1, hd2, bL1, bL2 with
        | .node m1 md mh m2, hklr, blr, hg, _, hlh, hd1, hd2, bL1, bL2 =>
          rcases heightOk_node.mp hklr with ⟨hmh, hkm1, hkm2⟩
          rcases blr with ⟨bM1, bM2, bm1, bm2⟩
          have em1 : AVL.height m1 = rheight m1 := height_eq_rheight hkm1
          have em2 : AVL.height m2 = rheight m2 := height_eq_rheight hkm2
          simp only [rheight] at hg hlh hd1 hd2 bL1 bL2 h1
          have hg' : ¬ AVL.height (ATree.node m1 md mh m2) ≤ AVL.height ll := by
            rw [height_node, ell, hmh]
            omega
          rw [balance_eq_lrr (by rw [height_node, er, hlh]; omega) hg', rotL_eq, rotR_eq]
          simp only [height_node]
          rw [ell, em1, em2, er]
          refine ⟨?_, ?_, ?_⟩
          · refine heightOk_node.mpr
              ⟨?_, heightOk_node.mpr ⟨?_, hkll, hkm1⟩,
               heightOk_node.mpr ⟨?_, hkm2, hkr⟩⟩ <;> simp [rheight]
          · simp only [balancedP_node, rheight]
            refine ⟨?_, ?_, ⟨?_, ?_, bll, bm1⟩, ?_, ?_, bm2, br⟩ <;> omega
          · simp only [rheight]
            omega
  · by_cases h2 : AVL.height l - AVL.height r < -1
    · -- right-heavy by exactly 2
      have hrge : 0 ≤ rheight r := by have := rheight_ge l; omega
      match r, hkr, br, er, hd1, hd2, hrge, h1, h2 with
      | .node rl rd rh rr, hkr, br, er, hd1, hd2, _, h1, h2 =>
        rcases heightOk_node.mp hkr with ⟨hrh, hkrl, hkrr⟩
        rcases br with ⟨bR1, bR2, brl, brr⟩
        have erl : AVL.height rl = rheight rl := height_eq_rheight hkrl
        have err : AVL.height rr = rheight rr := height_eq_rheight hkrr
        rw [el] at h2
        rw [height_node] at h2
        simp only [rheight] at hd1 hd2
        by_cases hg : AVL.height rl ≤ AVL.height rr
        · rw [balance_eq_ll (by rw [height_node, el, hrh]; omega)
              (by rw [height_node, el, hrh]; omega) hg, rotL_eq, erl, err, el]
          rw [erl, err] at hg
          refine ⟨?_, ?_, ?_⟩
          · refine heightOk_node.mpr ⟨?_, heightOk_node.mpr ⟨?_, hkl, hkrl⟩, hkrr⟩ <;>
              simp [rheight]
          · simp only [balancedP_node, rheight]
            refine ⟨?_, ?_, ⟨?_, ?_, bl, brl⟩, brr⟩
            all_goals omega
          · simp only [rheight]
            omega
        · -- right-left double rotation: `rl` is non-null
          rw [erl, err] at hg
          have hrlge : 0 ≤ rheight rl := by have := rheight_ge rr; omega
          match rl, hkrl, brl, hg, hrlge, hrh, hd1, hd2, bR1, bR2 with
          | .node m1 md mh m2, hkrl, brl, hg, _, hrh, hd1, hd2, bR1, bR2 =>
            rcases heightOk_node.mp hkrl with ⟨hmh, hkm1, hkm2⟩
            rcases brl with ⟨bM1, bM2, bm1, bm2⟩
            have em1 : AVL.height m1 = rheight m1 := height_eq_rheight hkm1
            have em2 : AVL.height m2 = rheight m2 := height_eq_rheight hkm2
            simp only [rheight] at hg hrh hd1 hd2 bR1 bR2 h2
            have hg' : ¬ AVL.height (ATree.node m1 md mh m2) ≤ AVL.height rr := by
              rw [height_node, err, hmh]
              omega
            rw [balance_eq_rll (by rw [height_node, el, hrh]; omega)
                (by rw [height_node, el, hrh]; omega) hg', rotR_eq, rotL_eq]
            simp only [height_node]
            rw [em1, em2, el, err]
            refine ⟨?_, ?_, ?_⟩
            · refine heightOk_node.mpr
                ⟨?_, heightOk_node.mpr ⟨?_, hkl, hkm1⟩,
                 heightOk_node.mpr ⟨?_, hkm2, hkrr⟩⟩ <;> simp [rheight]
            · simp only [balancedP_node, rheight]
              refine ⟨?_, ?_, ⟨?_, ?_, bl, bm1⟩, ?_, ?_, bm2, brr⟩ <;> omega
            · simp only [rheight]
              omega
    · -- no rotation
      rw [balance_eq_id h1 h2, el, er]
      rw [el, er] at h1 h2
      refine ⟨?_, ?_, Or.inl ?_⟩
      · exact heightOk_node.mpr ⟨by simp [rheight], hkl, hkr⟩
      · exact balancedP_node.mpr ⟨by omega, by omega, bl, br⟩
      · simp [rheight]

/-! ## AVL: insertion -/

theorem AVL.insert_lt_true {l r : ATree} {d h v : Int} (hv : v < d)
    (hf : (AVL.insert l v).1 = true) :
    AVL.insert (.node l d h r) v =
      (true, AVL.balance (.node (AVL.insert l v).2 d
        (1 + max (AVL.height (AVL.insert l v).2) (AVL.height r)) r)) := by
  simp [AVL.insert, hv, hf]

theorem AVL.insert_lt_false {l r : ATree} {d h v : Int} (hv : v < d)
    (hf : (AVL.insert l v).1 = false) :
    AVL.insert (.node l d h r) v = (false, .node (AVL.insert l v).2 d h r) := by
  simp [AVL.insert, hv, hf]

theorem AVL.insert_gt_true {l r : ATree} {d h v : Int} (h1 : ¬ v < d) (h2 : d < v)
    (hf : (AVL.insert r v).1 = true) :
    AVL.insert (.node l d h r) v =
      (true, AVL.balance (.node l d
        (1 + max (AVL.height l) (AVL.height (AVL.insert r v).2)) (AVL.insert r v).2)) := by
  simp [AVL.insert, h1, h2, hf]

theorem AVL.insert_gt_false {l r : ATree} {d h v : Int} (h1 : ¬ v < d) (h2 : d < v)
    (hf : (AVL.insert r v).1 = false) :
    AVL.insert (.node l d h r) v = (false, .node l d h (AVL.insert r v).2) := by
  simp [AVL.insert, h1, h2, hf]

theorem AVL.insert_found_dup {l r : ATree} {d h v : Int} (h1 : ¬ v < d) (h2 : ¬ d < v) :
    AVL.insert (.node l d h r) v = (false, .node l d h r) := by
  simp [AVL.insert, h1, h2]

theorem avl_insert_fst (t : ATree) (v : Int) :
    (AVL.insert t v).1 = !AVL.contain t v := by
  induction t with
  | nil => rfl
  | node l d h r ihl ihr =>
    by_cases h1 : v < d
    · cases hf : (AVL.insert l v).1 with
      | true =>
        rw [AVL.insert_lt_true h1 hf]
        rw [hf] at ihl
        simp [AVL.contain, h1, ← ihl]
      | false =>
        rw [AVL.insert_lt_false h1 hf]
        rw [hf] at ihl
        simp [AVL.contain, h1, ← ihl]
    · by_cases h2 : d < v
      · cases hf : (AVL.insert r v).1 with
        | true =>
          rw [AVL.insert_gt_true h1 h2 hf]
          rw [hf] at ihr
          simp [AVL.contain, h1, h2, ← ihr]
        | false =>
          rw [AVL.insert_gt_false h1 h2 hf]
          rw [hf] at ihr
          simp [AVL.contain, h1, h2, ← ihr]
      · rw [AVL.insert_found_dup h1 h2]
        simp [AVL.contain, h1, h2]

theorem avl_insert_false_snd {t : ATree} {v : Int} (hf : (AVL.insert t v).1 = false) :
    (AVL.insert t v).2 = t := by
  induction t with
  | nil => simp [AVL.insert] at hf
  | node l d h r ihl ihr =>
    by_cases h1 : v < d
    · cases hf2 : (AVL.insert l v).1 with
      | true => rw [AVL.insert_lt_true h1 hf2] at hf; simp at hf
      | false => rw [AVL.insert_lt_false h1 hf2, ihl hf2]
    · by_cases h2 : d < v
      · cases hf2 : (AVL.insert r v).1 with
        | true => rw [AVL.insert_gt_true h1 h2 hf2] at hf; simp at hf
        | false => rw [AVL.insert_gt_false h1 h2 hf2, ihr hf2]
      · rw [AVL.insert_found_dup h1 h2]

theorem avl_insert_of_contain {t : ATree} {v : Int} (hc : AVL.contain t v = true) :
    AVL.insert t v = (false, t) := by
  have hf : (AVL.insert t v).1 = false := by rw [avl_insert_fst, hc]; rfl
  have hs : (AVL.insert t v).2 = t := avl_insert_false_snd hf
  rw [Prod.ext_iff]
  exact ⟨hf, hs⟩

theorem avl_insert_mem (t : ATree) (v : Int) :
    ∀ x, memA (AVL.insert t v).2 x = true ↔ (memA t x = true ∨ x = v) := by
  induction t with
  | nil =>
    intro x
    simp [AVL.insert, memA_node, memA]
  | node l d h r ihl ihr =>
    intro x
    by_cases h1 : v < d
    · cases hf : (AVL.insert l v).1 with
      | true =>
        rw [AVL.insert_lt_true h1 hf]
        simp only [memA_balance, memA_node, ihl]
        tauto
      | false =>
        rw [AVL.insert_lt_false h1 hf]
        simp only [memA_node, ihl]
        tauto
    · by_cases h2 : d < v
      · cases hf : (AVL.insert r v).1 with
        | true =>
          rw [AVL.insert_gt_true h1 h2 hf]
          simp only [memA_balance, memA_node, ihr]
          tauto
        | false =>
          rw [AVL.insert_gt_false h1 h2 hf]
          simp only [memA_node, ihr]
          tauto
      · rw [AVL.insert_found_dup h1 h2]
        have : v = d := by omega
        subst this
        simp only [memA_node]
        tauto

theorem avl_insert_ordered {t : ATree} (ho : orderedA t = true) (v : Int) :
    orderedA (AVL.insert t v).2 = true := by
  induction t with
  | nil => simp [AVL.insert, orderedA, allLtA, allGtA]
  | node l d h r ihl ihr =>
    rcases orderedA_node.mp ho with ⟨hlt, hgt, hol, hor⟩
    by_cases h1 : v < d
    · have hlt' : allLtA (AVL.insert l v).2 d = true := by
        rw [allLtA_iff]
        intro x hx
        rcases (avl_insert_mem l v x).mp hx with hh | rfl
        · exact allLtA_iff.mp hlt x hh
        · exact h1
      cases hf : (AVL.insert l v).1 with
      | true =>
        rw [AVL.insert_lt_true h1 hf]
        exact orderedA_balance
          (h := 1 + max (AVL.height (AVL.insert l v).2) (AVL.height r))
          (orderedA_node.mpr ⟨hlt', hgt, ihl hol, hor⟩)
      | false =>
        rw [AVL.insert_lt_false h1 hf]
        exact orderedA_node.mpr ⟨hlt', hgt, ihl hol, hor⟩
    · by_cases h2 : d < v
      · have hgt' : allGtA (AVL.insert r v).2 d = true := by
          rw [allGtA_iff]
          intro x hx
          rcases (avl_insert_mem r v x).mp hx with hh | rfl
          · exact allGtA_iff.mp hgt x hh
          · exact h2
        cases hf : (AVL.insert r v).1 with
        | true =>
          rw [AVL.insert_gt_true h1 h2 hf]
          exact orderedA_balance
            (h := 1 + max (AVL.height l) (AVL.height (AVL.insert r v).2))
            (orderedA_node.mpr ⟨hlt, hgt', hol, ihr hor⟩)
        | false =>
          rw [AVL.insert_gt_false h1 h2 hf]
          exact orderedA_node.mpr ⟨hlt, hgt', hol, ihr hor⟩
      · rw [AVL.insert_found_dup h1 h2]
        exact ho

theorem avl_insert_spec {t : ATree} (hk : heightOk t = true) (bp : balancedP t) (v : Int) :
    heightOk (AVL.insert t v).2 = true ∧ balancedP (AVL.insert t v).2 ∧
    (rheight (AVL.insert t v).2 = rheight t ∨ rheight (AVL.insert t v).2 = rheight t + 1) := by
  induction t with
  | nil =>
    refine ⟨?_, ?_, Or.inr ?_⟩ <;> simp [AVL.insert, heightOk, balancedP, rheight]
  | node l d h r ihl ihr =>
    rcases heightOk_node.mp hk with ⟨hh, hkl, hkr⟩
    rcases bp with ⟨b1, b2, bl, br⟩
    by_cases h1 : v < d
    · cases hf : (AVL.insert l v).1 with
      | false =>
        rw [AVL.insert_lt_false h1 hf, avl_insert_false_snd hf]
        exact ⟨heightOk_node.mpr ⟨hh, hkl, hkr⟩, ⟨b1, b2, bl, br⟩, Or.inl rfl⟩
      | true =>
        rw [AVL.insert_lt_true h1 hf]
        rcases ihl hkl bl with ⟨hk', bp', hht'⟩
        have el' : AVL.height (AVL.insert l v).2 = rheight (AVL.insert l v).2 :=
          height_eq_rheight hk'
        have er : AVL.height r = rheight r := height_eq_rheight hkr
        rcases balance_spec d (1 + max (AVL.height (AVL.insert l v).2) (AVL.height r))
          hk' hkr bp' br (by omega) (by omega) with ⟨hkB, bpB, hhB⟩
        refine ⟨hkB, bpB, ?_⟩
        simp only [rheight]
        omega
    · by_cases h2 : d < v
      · cases hf : (AVL.insert r v).1 with
        | false =>
          rw [AVL.insert_gt_false h1 h2 hf, avl_insert_false_snd hf]
          exact ⟨heightOk_node.mpr ⟨hh, hkl, hkr⟩, ⟨b1, b2, bl, br⟩, Or.inl rfl⟩
        | true =>
          rw [AVL.insert_gt_true h1 h2 hf]
          rcases ihr hkr br with ⟨hk', bp', hht'⟩
          have er' : AVL.height (AVL.insert r v).2 = rheight (AVL.insert r v).2 :=
            height_eq_rheight hk'
          have el : AVL.height l = rheight l := height_eq_rheight hkl
          rcases balance_spec d (1 + max (AVL.height l) (AVL.height (AVL.insert r v).2))
            hkl hk' bl bp' (by omega) (by omega) with ⟨hkB, bpB, hhB⟩
          refine ⟨hkB, bpB, ?_⟩
          simp only [rheight]
          omega
      · rw [AVL.insert_found_dup h1 h2]
        exact ⟨heightOk_node.mpr ⟨hh, hkl, hkr⟩, ⟨b1, b2, bl, br⟩, Or.inl rfl⟩

/-! ## AVL: removal -/

theorem AVL.remove_empty {v : Int} : AVL.remove .nil v = (false, .nil) := by
  simp [AVL.remove]

theorem AVL.remove_lt_true {l r : ATree} {d h v : Int} (hv : v < d)
    (hf : (AVL.remove l v).1 = true) :
    AVL.remove (.node l d h r) v =
      (true, AVL.balance (.node (AVL.remove l v).2 d
        (1 + max (AVL.height (AVL.remove l v).2) (AVL.height r)) r)) := by
  rw [AVL.remove.eq_def]
  simp [hv, hf]

theorem AVL.remove_lt_false {l r : ATree} {d h v : Int} (hv : v < d)
    (hf : (AVL.remove l v).1 = false) :
    AVL.remove (.node l d h r) v = (false, .node (AVL.remove l v).2 d h r) := by
  rw [AVL.remove.eq_def]
  simp [hv, hf]

theorem AVL.remove_gt_true {l r : ATree} {d h v : Int} (h1 : ¬ v < d) (h2 : d < v)
    (hf : (AVL.remove r v).1 = true) :
    AVL.remove (.node l d h r) v =
      (true, AVL.balance (.node l d
        (1 + max (AVL.height l) (AVL.height (AVL.remove r v).2)) (AVL.remove r v).2)) := by
  rw [AVL.remove.eq_def]
  simp [h1, h2, hf]

theorem AVL.remove_gt_false {l r : ATree} {d h v : Int} (h1 : ¬ v < d) (h2 : d < v)
    (hf : (AVL.remove r v).1 = false) :
    AVL.remove (.node l d h r) v = (false, .node l d h (AVL.remove r v).2) := by
  rw [AVL.remove.eq_def]
  simp [h1, h2, hf]

theorem AVL.remove_found_leaf_case {d h v : Int} (h1 : ¬ v < d) (h2 : ¬ d < v) :
    AVL.remove (.node .nil d h .nil) v = (true, .nil) := by
  rw [AVL.remove.eq_def]
  simp [h1, h2]

theorem AVL.remove_found_right_only {rl rr : ATree} {d rd rh h v : Int}
    (h1 : ¬ v < d) (h2 : ¬ d < v) :
    AVL.remove (.node .nil d h (.node rl rd rh rr)) v =
      (true, AVL.balance (.node rl rd (1 + max (AVL.height rl) (AVL.height rr)) rr)) := by
  rw [AVL.remove.eq_def]
  simp [h1, h2]

theorem AVL.remove_found_left_only {ll lr : ATree} {d ld lh h v : Int}
    (h1 : ¬ v < d) (h2 : ¬ d < v) :
    AVL.remove (.node (.node ll ld lh lr) d h .nil) v =
      (true, AVL.balance (.node ll ld (1 + max (AVL.height ll) (AVL.height lr)) lr)) := by
  rw [AVL.remove.eq_def]
  simp [h1, h2]

theorem AVL.remove_found_two_true {ll lr rl rr : ATree} {d ld lh rd rh h v : Int}
    (h1 : ¬ v < d) (h2 : ¬ d < v)
    (hf : (AVL.remove (.node ll ld lh lr) (AVL.nodeMax ll ld lr)).1 = true) :
    AVL.remove (.node (.node ll ld lh lr) d h (.node rl rd rh rr)) v =
      (true, AVL.balance (.node (AVL.remove (.node ll ld lh lr) (AVL.nodeMax ll ld lr)).2
        (AVL.nodeMax ll ld lr)
        (1 + max (AVL.height (AVL.remove (.node ll ld lh lr) (AVL.nodeMax ll ld lr)).2)
          (AVL.height (ATree.node rl rd rh rr)))
        (.node rl rd rh rr))) := by
  rw [AVL.remove.eq_def]
  simp [h1, h2, hf]

theorem AVL.remove_found_two_false {ll lr rl rr : ATree} {d ld lh rd rh h v : Int}
    (h1 : ¬ v < d) (h2 : ¬ d < v)
    (hf : (AVL.remove (.node ll ld lh lr) (AVL.nodeMax ll ld lr)).1 = false) :
    AVL.remove (.node (.node ll ld lh lr) d h (.node rl rd rh rr)) v =
      (false, .node (AVL.remove (.node ll ld lh lr) (AVL.nodeMax ll ld lr)).2
        (AVL.nodeMax ll ld lr) h (.node rl rd rh rr)) := by
  rw [AVL.remove.eq_def]
  simp [h1, h2, hf]

theorem nodeMaxA_mem : ∀ (ll : ATree) (d : Int) (lr : ATree) (lh : Int),
    memA (.node ll d lh lr) (AVL.nodeMax ll d lr) = true := by
  intro ll d lr
  induction lr generalizing ll d with
  | nil => intro lh; simp [AVL.nodeMax, memA_node]
  | node rl rd rh rr ih_rl ih_rr =>
    intro lh
    have hstep : AVL.nodeMax ll d (.node rl rd rh rr) = AVL.nodeMax rl rd rr := by
      simp [AVL.nodeMax]
    rw [hstep]
    exact memA_node.mpr (Or.inr (Or.inr (ih_rr rl rd rh)))

theorem nodeMaxA_ub : ∀ (ll : ATree) (d : Int) (lr : ATree) (lh : Int),
    orderedA (.node ll d lh lr) = true →
    ∀ x, memA (.node ll d lh lr) x = true → x ≤ AVL.nodeMax ll d lr := by
  intro ll d lr
  induction lr generalizing ll d with
  | nil =>
    intro lh ho x hx
    rcases orderedA_node.mp ho with ⟨hlt, _, _, _⟩
    rcases memA_node.mp hx with rfl | hh | hh
    · simp [AVL.nodeMax]
    · have := allLtA_iff.mp hlt x hh
      simp [AVL.nodeMax]; omega
    · simp [memA] at hh
  | node rl rd rh rr ih_rl ih_rr =>
    intro lh ho x hx
    rcases orderedA_node.mp ho with ⟨hlt, hgt, hol, hor⟩
    have hstep : AVL.nodeMax ll d (.node rl rd rh rr) = AVL.nodeMax rl rd rr := by
      simp [AVL.nodeMax]
    rw [hstep]
    have hmem_m : memA (.node rl rd rh rr) (AVL.nodeMax rl rd rr) = true :=
      nodeMaxA_mem rl rd rr rh
    have hd_lt_m : d < AVL.nodeMax rl rd rr := allGtA_iff.mp hgt _ hmem_m
    rcases memA_node.mp hx with rfl | hh | hh
    · omega
    · have := allLtA_iff.mp hlt x hh
      omega
    · exact ih_rr rl rd rh hor x hh

theorem avl_remove_not_contain {t : ATree} {v : Int} (hc : AVL.contain t v = false) :
    AVL.remove t v = (false, t) := by
  induction t with
  | nil => exact AVL.remove_empty
  | node l d h r ihl ihr =>
    by_cases h1 : v < d
    · have hc' : AVL.contain l v = false := by simpa [AVL.contain, h1] using hc
      have hf : (AVL.remove l v).1 = false := by rw [ihl hc']
      rw [AVL.remove_lt_false h1 hf, ihl hc']
    · by_cases h2 : d < v
      · have hc' : AVL.contain r v = false := by simpa [AVL.contain, h1, h2] using hc
        have hf : (AVL.remove r v).1 = false := by rw [ihr hc']
        rw [AVL.remove_gt_false h1 h2 hf, ihr hc']
      · simp [AVL.contain, h1, h2] at hc

theorem avl_remove_good {t : ATree} (ho : orderedA t = true) : ∀ v : Int,
    (AVL.remove t v).1 = AVL.contain t v ∧
    orderedA (AVL.remove t v).2 = true ∧
    (∀ x, memA (AVL.remove t v).2 x = true ↔ (memA t x = true ∧ x ≠ v)) := by
  induction t with
  | nil =>
    intro v
    rw [AVL.remove_empty]
    exact ⟨rfl, rfl, fun x => by simp [memA]⟩
  | node l d h r ihl ihr =>
    intro v
    rcases orderedA_node.mp ho with ⟨hlt, hgt, hol, hor⟩
    by_cases h1 : v < d
    · rcases ihl hol v with ⟨hfl, hol', hml⟩
      cases hc : AVL.contain l v with
      | false =>
        have hf : (AVL.remove l v).1 = false := by rw [hfl, hc]
        have hun : AVL.remove l v = (false, l) := avl_remove_not_contain hc
        rw [AVL.remove_lt_false h1 hf, hun]
        refine ⟨by simp [AVL.contain, h1, hc], ho, fun x => ?_⟩
        have hvl : memA l v = false := by rw [← contain_eq_memA hol]; exact hc
        constructor
        · intro hx
          refine ⟨hx, fun hxv => ?_⟩
          subst hxv
          rcases memA_node.mp hx with rfl | hh | hh
          · omega
          · rw [hvl] at hh; exact absurd hh (by simp)
          · have := allGtA_iff.mp hgt x hh
            omega
        · exact fun hx => hx.1
      | true =>
        have hf : (AVL.remove l v).1 = true := by rw [hfl, hc]
        rw [AVL.remove_lt_true h1 hf]
        refine ⟨by simp [AVL.contain, h1, hc], ?_, fun x => ?_⟩
        · refine orderedA_balance
            (h := 1 + max (AVL.height (AVL.remove l v).2) (AVL.height r)) ?_
          refine orderedA_node.mpr ⟨?_, hgt, hol', hor⟩
          rw [allLtA_iff]
          intro x hx
          exact allLtA_iff.mp hlt x ((hml x).mp hx).1
        · rw [memA_balance]
          constructor
          · intro hx
            rcases memA_node.mp hx with rfl | hh | hh
            · exact ⟨memA_node.mpr (Or.inl rfl), by omega⟩
            · rcases (hml x).mp hh with ⟨hm2, hne⟩
              exact ⟨memA_node.mpr (Or.inr (Or.inl hm2)), hne⟩
            · have := allGtA_iff.mp hgt x hh
              exact ⟨memA_node.mpr (Or.inr (Or.inr hh)), by omega⟩
          · rintro ⟨hx, hne⟩
            rcases memA_node.mp hx with rfl | hh | hh
            · exact memA_node.mpr (Or.inl rfl)
            · exact memA_node.mpr (Or.inr (Or.inl ((hml x).mpr ⟨hh, hne⟩)))
            · exact memA_node.mpr (Or.inr (Or.inr hh))
    · by_cases h2 : d < v
      · rcases ihr hor v with ⟨hfr, hor', hmr⟩
        cases hc : AVL.contain r v with
        | false =>
          have hf : (AVL.remove r v).1 = false := by rw [hfr, hc]
          have hun : AVL.remove r v = (false, r) := avl_remove_not_contain hc
          rw [AVL.remove_gt_false h1 h2 hf, hun]
          refine ⟨by simp [AVL.contain, h1, h2, hc], ho, fun x => ?_⟩
          have hvr : memA r v = false := by rw [← contain_eq_memA hor]; exact hc
          constructor
          · intro hx
            refine ⟨hx, fun hxv => ?_⟩
            subst hxv
            rcases memA_node.mp hx with rfl | hh | hh
            · omega
            · have := allLtA_iff.mp hlt x hh
              omega
            · rw [hvr] at hh; exact absurd hh (by simp)
          · exact fun hx => hx.1
        | true =>
          have hf : (AVL.remove r v).1 = true := by rw [hfr, hc]
          rw [AVL.remove_gt_true h1 h2 hf]
          refine ⟨by simp [AVL.contain, h1, h2, hc], ?_, fun x => ?_⟩
          · refine orderedA_balance
              (h := 1 + max (AVL.height l) (AVL.height (AVL.remove r v).2)) ?_
            refine orderedA_node.mpr ⟨hlt, ?_, hol, hor'⟩
            rw [allGtA_iff]
            intro x hx
            exact allGtA_iff.mp hgt x ((hmr x).mp hx).1
          · rw [memA_balance]
            constructor
            · intro hx
              rcases memA_node.mp hx with rfl | hh | hh
              · exact ⟨memA_node.mpr (Or.inl rfl), by omega⟩
              · have := allLtA_iff.mp hlt x hh
                exact ⟨memA_node.mpr (Or.inr (Or.inl hh)), by omega⟩
              · rcases (hmr x).mp hh with ⟨hm2, hne⟩
                exact ⟨memA_node.mpr (Or.inr (Or.inr hm2)), hne⟩
            · rintro ⟨hx, hne⟩
              rcases memA_node.mp hx with rfl | hh | hh
              · exact memA_node.mpr (Or.inl rfl)
              · exact memA_node.mpr (Or.inr (Or.inl hh))
              · exact memA_node.mpr (Or.inr (Or.inr ((hmr x).mpr ⟨hh, hne⟩)))
      · have hvd : v = d := by omega
        subst hvd
        match l, r, hlt, hgt, hol, hor, ihl with
        | .nil, .nil, _, _, _, _, _ =>
          rw [AVL.remove_found_leaf_case h1 h2]
          refine ⟨by simp [AVL.contain, h1, h2], rfl, fun x => ?_⟩
          simp [memA, memA_node]
        | .nil, .node rl rd rh rr, hlt, hgt, hol, hor, _ =>
          rw [AVL.remove_found_right_only h1 h2]
          refine ⟨by simp [AVL.contain, h1, h2], ?_, fun x => ?_⟩
          · exact orderedA_balance
              (h := 1 + max (AVL.height rl) (AVL.height rr)) hor
          · rw [memA_balance]
            constructor
            · intro hx
              have hx' : memA (.node rl rd rh rr) x = true := hx
              have := allGtA_iff.mp hgt x hx'
              exact ⟨memA_node.mpr (Or.inr (Or.inr hx')), by omega⟩
            · rintro ⟨hx, hne⟩
              rcases memA_node.mp hx with rfl | hh | hh
              · omega
              · simp [memA] at hh
              · exact hh
        | .node ll ld lh lr, .nil, hlt, hgt, hol, hor, _ =>
          rw [AVL.remove_found_left_only h1 h2]
          refine ⟨by simp [AVL.contain, h1, h2], ?_, fun x => ?_⟩
          · exact orderedA_balance
              (h := 1 + max (AVL.height ll) (AVL.height lr)) hol
          · rw [memA_balance]
            constructor
            · intro hx
              have hx' : memA (.node ll ld lh lr) x = true := hx
              have := allLtA_iff.mp hlt x hx'
              exact ⟨memA_node.mpr (Or.inr (Or.inl hx')), by omega⟩
            · rintro ⟨hx, hne⟩
              rcases memA_node.mp hx with rfl | hh | hh
              · omega
              · exact hh
              · simp [memA] at hh
        | .node ll ld lh lr, .node rl rd rh rr, hlt, hgt, hol, hor, ihl =>
          rcases ihl hol (AVL.nodeMax ll ld lr) with ⟨hfl, hol', hml⟩
          have hm_mem : memA (.node ll ld lh lr) (AVL.nodeMax ll ld lr) = true :=
            nodeMaxA_mem ll ld lr lh
          have hm_lt_d : AVL.nodeMax ll ld lr < v := allLtA_iff.mp hlt _ hm_mem
          have hm_ub := nodeMaxA_ub ll ld lr lh hol
          have hc : AVL.contain (.node ll ld lh lr) (AVL.nodeMax ll ld lr) = true := by
            rw [contain_eq_memA hol]; exact hm_mem
          have hf : (AVL.remove (.node ll ld lh lr) (AVL.nodeMax ll ld lr)).1 = true := by
            rw [hfl, hc]
          rw [AVL.remove_found_two_true h1 h2 hf]
          refine ⟨by simp [AVL.contain, h1, h2], ?_, fun x => ?_⟩
          · refine orderedA_balance
              (h := 1 + max
                (AVL.height (AVL.remove (.node ll ld lh lr) (AVL.nodeMax ll ld lr)).2)
                (AVL.height (ATree.node rl rd rh rr))) ?_
            refine orderedA_node.mpr ⟨?_, ?_, hol', hor⟩
            · rw [allLtA_iff]
              intro x hx
              rcases (hml x).mp hx with ⟨hxl, hne⟩
              have := hm_ub x hxl
              omega
            · rw [allGtA_iff]
              intro x hx
              have := allGtA_iff.mp hgt x hx
              omega
          · rw [memA_balance]
            constructor
            · intro hx
              rcases memA_node.mp hx with rfl | hh | hh
              · exact ⟨memA_node.mpr (Or.inr (Or.inl hm_mem)), by omega⟩
              · rcases (hml x).mp hh with ⟨hxl, hne⟩
                have := allLtA_iff.mp hlt x hxl
                exact ⟨memA_node.mpr (Or.inr (Or.inl hxl)), by omega⟩
              · have := allGtA_iff.mp hgt x hh
                exact ⟨memA_node.mpr (Or.inr (Or.inr hh)), by omega⟩
            · rintro ⟨hx, hne⟩
              rcases memA_node.mp hx with rfl | hh | hh
              · omega
              · by_cases hxm : x = AVL.nodeMax ll ld lr
                · exact memA_node.mpr (Or.inl hxm)
                · exact memA_node.mpr (Or.inr (Or.inl ((hml x).mpr ⟨hh, hxm⟩)))
              · exact memA_node.mpr (Or.inr (Or.inr hh))

theorem avl_remove_spec {t : ATree} (ho : orderedA t = true) (hk : heightOk t = true)
    (bp : balancedP t) : ∀ v : Int,
    heightOk (AVL.remove t v).2 = true ∧ balancedP (AVL.remove t v).2 ∧
    (rheight (AVL.remove t v).2 = rheight t ∨ rheight (AVL.remove t v).2 = rheight t - 1) := by
  induction t with
  | nil =>
    intro v
    rw [AVL.remove_empty]
    exact ⟨rfl, trivial, Or.inl rfl⟩
  | node l d h r ihl ihr =>
    intro v
    rcases orderedA_node.mp ho with ⟨hlt, hgt, hol, hor⟩
    rcases heightOk_node.mp hk with ⟨hh, hkl, hkr⟩
    rcases bp with ⟨b1, b2, bl, br⟩
    by_cases h1 : v < d
    · cases hc : AVL.contain l v with
      | false =>
        have hf : (AVL.remove l v).1 = false := by
          rw [(avl_remove_good hol v).1, hc]
        have hun : AVL.remove l v = (false, l) := avl_remove_not_contain hc
        rw [AVL.remove_lt_false h1 hf, hun]
        exact ⟨heightOk_node.mpr ⟨hh, hkl, hkr⟩, ⟨b1, b2, bl, br⟩, Or.inl rfl⟩
      | true =>
        have hf : (AVL.remove l v).1 = true := by
          rw [(avl_remove_good hol v).1, hc]
        rw [AVL.remove_lt_true h1 hf]
        rcases ihl hol hkl bl v with ⟨hk2, bp2, hh2⟩
        rcases balance_spec d
          (1 + max (AVL.height (AVL.remove l v).2) (AVL.height r))
          hk2 hkr bp2 br (by omega) (by omega) with ⟨hkB, bpB, hhB⟩
        refine ⟨hkB, bpB, ?_⟩
        simp only [rheight]
        omega
    · by_cases h2 : d < v
      · cases hc : AVL.contain r v with
        | false =>
          have hf : (AVL.remove r v).1 = false := by
            rw [(avl_remove_good hor v).1, hc]
          have hun : AVL.remove r v = (false, r) := avl_remove_not_contain hc
          rw [AVL.remove_gt_false h1 h2 hf, hun]
          exact ⟨heightOk_node.mpr ⟨hh, hkl, hkr⟩, ⟨b1, b2, bl, br⟩, Or.inl rfl⟩
        | true =>
          have hf : (AVL.remove r v).1 = true := by
            rw [(avl_remove_good hor v).1, hc]
          rw [AVL.remove_gt_true h1 h2 hf]
          rcases ihr hor hkr br v with ⟨hk2, bp2, hh2⟩
          rcases balance_spec d
            (1 + max (AVL.height l) (AVL.height (AVL.remove r v).2))
            hkl hk2 bl bp2 (by omega) (by omega) with ⟨hkB, bpB, hhB⟩
          refine ⟨hkB, bpB, ?_⟩
          simp only [rheight]
          omega
      · have hvd : v = d := by omega
        subst hvd
        match l, r, hlt, hgt, hol, hor, hkl, hkr, bl, br, b1, b2, hh, ihl with
        | .nil, .nil, _, _, _, _, _, _, _, _, _, _, _, _ =>
          rw [AVL.remove_found_leaf_case h1 h2]
          refine ⟨rfl, trivial, Or.inr ?_⟩
          simp [rheight]
        | .nil, .node rl rd rh rr, hlt, hgt, hol, hor, hkl, hkr, bl, br, b1, b2, hh, _ =>
          rcases heightOk_node.mp hkr with ⟨hrh, hkrl, hkrr⟩
          rcases br with ⟨bR1, bR2, brl, brr⟩
          rw [AVL.remove_found_right_only h1 h2]
          rcases balance_spec rd (1 + max (AVL.height rl) (AVL.height rr))
            hkrl hkrr brl brr (by omega) (by omega) with ⟨hkB, bpB, hhB⟩
          refine ⟨hkB, bpB, ?_⟩
          have h1 := rheight_ge rl
          have h2 := rheight_ge rr
          simp only [rheight] at b1 b2 ⊢
          omega
        | .node ll ld lh lr, .nil, hlt, hgt, hol, hor, hkl, hkr, bl, br, b1, b2, hh, _ =>
          rcases heightOk_node.mp hkl with ⟨hlh, hkll, hklr⟩
          rcases bl with ⟨bL1, bL2, bll, blr⟩
          rw [AVL.remove_found_left_only h1 h2]
          rcases balance_spec ld (1 + max (AVL.height ll) (AVL.height lr))
            hkll hklr bll blr (by omega) (by omega) with ⟨hkB, bpB, hhB⟩
          refine ⟨hkB, bpB, ?_⟩
          have h1 := rheight_ge ll
          have h2 := rheight_ge lr
          simp only [rheight] at b1 b2 ⊢
          omega
        | .node ll ld lh lr, .node rl rd rh rr, hlt, hgt, hol, hor, hkl, hkr, bl, br, b1, b2, hh, ihl =>
          have hm_mem : memA (.node ll ld lh lr) (AVL.nodeMax ll ld lr) = true :=
            nodeMaxA_mem ll ld lr lh
          have hc : AVL.contain (.node ll ld lh lr) (AVL.nodeMax ll ld lr) = true := by
            rw [contain_eq_memA hol]; exact hm_mem
          have hf : (AVL.remove (.node ll ld lh lr) (AVL.nodeMax ll ld lr)).1 = true := by
            rw [(avl_remove_good hol (AVL.nodeMax ll ld lr)).1, hc]
          rw [AVL.remove_found_two_true h1 h2 hf]
          rcases ihl hol hkl bl (AVL.nodeMax ll ld lr) with ⟨hk2, bp2, hh2⟩
          rcases balance_spec (AVL.nodeMax ll ld lr)
            (1 + max
              (AVL.height (AVL.remove (.node ll ld lh lr) (AVL.nodeMax ll ld lr)).2)
              (AVL.height (ATree.node rl rd rh rr)))
            hk2 hkr bp2 br (by omega) (by omega) with ⟨hkB, bpB, hhB⟩
          refine ⟨hkB, bpB, ?_⟩
          simp only [rheight] at hh2 hhB b1 b2 ⊢
          omega

/-! ## The is_balanced checker -/

theorem is_balanced_aux_snd (t : ATree) : (AVL.is_balanced_aux t).2 = rheight t := by
  induction t with
  | nil => rfl
  | node l d h r ihl ihr => simp [AVL.is_balanced_aux, ihl, ihr, rheight]

theorem is_balanced_aux_fst (t : ATree) :
    (AVL.is_balanced_aux t).1 = true ↔ balancedP t := by
  induction t with
  | nil => simp [AVL.is_balanced_aux, balancedP]
  | node l d h r ihl ihr =>
    simp only [AVL.is_balanced_aux, Bool.and_eq_true, decide_eq_true_eq,
      is_balanced_aux_snd, ihl, ihr, balancedP_node, abs_le]
    constructor
    · rintro ⟨⟨hl, hr⟩, hab⟩
      exact ⟨by omega, by omega, hl, hr⟩
    · rintro ⟨hb1, hb2, hl, hr⟩
      exact ⟨⟨hl, hr⟩, by omega⟩

theorem is_balanced_iff (t : ATree) : AVL.is_balanced t = true ↔ balancedP t :=
  is_balanced_aux_fst t

/-! ## AVL: sorted in-order traversal -/

theorem inOrderA_eq (t : ATree) : AVL.inOrderA t = elistA t := by
  induction t with
  | nil => rfl
  | node l d h r ihl ihr => simp [AVL.inOrderA, elistA, ihl, ihr]

theorem avl_in_order_eq (t : ATree) : AVL.in_order t = elistA t := inOrderA_eq t

theorem elistA_mem : ∀ (t : ATree) (x : Int), x ∈ elistA t ↔ memA t x = true := by
  intro t
  induction t with
  | nil => intro x; simp [elistA, memA]
  | node l d h r ihl ihr =>
    intro x
    simp [elistA, memA_node, ihl, ihr]
    tauto

theorem avl_sorted {t : ATree} (ho : orderedA t = true) :
    List.Pairwise (· < ·) (elistA t) := by
  induction t with
  | nil => exact List.Pairwise.nil
  | node l d h r ihl ihr =>
    rcases orderedA_node.mp ho with ⟨hlt, hgt, hol, hor⟩
    rw [elistA, List.pairwise_append]
    refine ⟨ihl hol, ?_, ?_⟩
    · rw [List.pairwise_cons]
      refine ⟨fun y hy => allGtA_iff.mp hgt y ((elistA_mem r y).mp hy), ihr hor⟩
    · intro a ha b hb
      have ha' := allLtA_iff.mp hlt a ((elistA_mem l a).mp ha)
      rcases List.mem_cons.mp hb with rfl | hb'
      · exact ha'
      · have := allGtA_iff.mp hgt b ((elistA_mem r b).mp hb')
        omega

/-! ## Reachable states satisfy the invariants -/

theorem stepA_inv {t : ATree} (hi : AvlInv t) (op : Op) : AvlInv (stepA t op) := by
  rcases hi with ⟨ho, hk, bp⟩
  cases op with
  | ins v =>
    exact ⟨avl_insert_ordered ho v, (avl_insert_spec hk bp v).1,
      (avl_insert_spec hk bp v).2.1⟩
  | del v =>
    exact ⟨(avl_remove_good ho v).2.1, (avl_remove_spec ho hk bp v).1,
      (avl_remove_spec ho hk bp v).2.1⟩

theorem runA_inv (ops : List Op) : AvlInv (runA ops) := by
  rw [runA]
  have key : ∀ (os : List Op) (t : ATree), AvlInv t → AvlInv (os.foldl stepA t) := by
    intro os
    induction os with
    | nil => exact fun t h => h
    | cons o os ih => exact fun t h => ih _ (stepA_inv h o)
  exact key ops .nil ⟨rfl, rfl, trivial⟩

theorem stepB_ordered {t : BTree} (ho : orderedB t = true) (op : Op) :
    orderedB (stepB t op) = true := by
  cases op with
  | ins v => exact bst_insert_ordered ho v
  | del v => exact (bst_remove_good ho v).1

theorem runB_ordered (ops : List Op) : orderedB (runB ops) = true := by
  rw [runB]
  have key : ∀ (os : List Op) (t : BTree), orderedB t = true →
      orderedB (os.foldl stepB t) = true := by
    intro os
    induction os with
    | nil => exact fun t h => h
    | cons o os ih => exact fun t h => ih _ (stepB_ordered h o)
  exact key ops .nil rfl

theorem bstInserts_ordered (vs : List Int) : orderedB (bstInserts vs) = true := by
  rw [bstInserts]
  have key : ∀ (ws : List Int) (t : BTree), orderedB t = true →
      orderedB (ws.foldl (fun t v => (BST.insert t v).2) t) = true := by
    intro ws
    induction ws with
    | nil => exact fun t h => h
    | cons w ws ih => exact fun t h => ih _ (bst_insert_ordered h w)
  exact key vs .nil rfl

theorem avlInserts_inv (vs : List Int) : AvlInv (avlInserts vs) := by
  rw [avlInserts]
  have key : ∀ (ws : List Int) (t : ATree), AvlInv t →
      AvlInv (ws.foldl (fun t v => (AVL.insert t v).2) t) := by
    intro ws
    induction ws with
    | nil => exact fun t h => h
    | cons w ws ih =>
      intro t h
      exact ih _ (stepA_inv h (Op.ins w))
  exact key vs .nil ⟨rfl, rfl, trivial⟩

/-! ## Positive traversal facts backing the sortedness claim -/

theorem bst_inserts_sorted (vs : List Int) :
    List.Pairwise (· < ·) (elistB (bstInserts vs)) :=
  bst_sorted (bstInserts_ordered vs)

theorem avl_inserts_in_order_sorted (vs : List Int) :
    List.Pairwise (· < ·) (AVL.in_order (avlInserts vs)) := by
  rw [avl_in_order_eq]
  exact avl_sorted (avlInserts_inv vs).1

theorem bst_inserts_in_order_sorted_of_node {vs : List Int} {l r : BTree} {d : Int}
    (hn : bstInserts vs = .node l d r) :
    BST.in_order (bstInserts vs) = some (elistB (bstInserts vs)) ∧
    List.Pairwise (· < ·) (elistB (bstInserts vs)) := by
  rw [hn, bst_in_order_eq]
  exact ⟨rfl, by rw [← hn]; exact bst_inserts_sorted vs⟩

/-! ## The claims -/

/-- C1: for the AVL variant, after any sequence of `insert` and `remove`
operations applied to the initially empty tree, every node satisfies
`|height(left subtree) - height(right subtree)| <= 1`; equivalently, the
public `is_balanced()` returns `true` after every public mutation. -/
theorem c1_avl_always_balanced (ops : List Op) :
    AVL.is_balanced (runA ops) = true ∧ balancedP (runA ops) :=
  ⟨(is_balanced_iff _).mpr (runA_inv ops).2.2, (runA_inv ops).2.2⟩

/-- C2: the claim that for every sequence of inserted values (either
variant) `in_order()` yields a strictly ascending duplicate-free sequence
fails for the BST variant and the empty sequence of insertions: on the
empty tree the public `in_order()` passes the null root to the private
helper, which reads `node->left` of a null pointer (modelled `none`)
instead of producing the empty sequence.  This theorem evaluates the code
at the failing input; `bst_inserts_sorted`, `avl_inserts_in_order_sorted`
and `bst_inserts_in_order_sorted_of_node` prove the claimed property on
every other input. -/
theorem c2_bst_empty_in_order_crash :
    bstInserts [] = BTree.nil ∧ BST.in_order (bstInserts []) = none :=
  ⟨rfl, rfl⟩

/-- C3 (counterexample): after inserting {30,20,10,25} and removing 30,
the root's value is 20 and not 25, in both variants: node 30 has only a
left child, so its removal takes the one-child case, not the two-children
case. -/
theorem bst_scenario_tree :
    bstInserts [30, 20, 10, 25] =
      .node (.node (.node .nil 10 .nil) 20 (.node .nil 25 .nil)) 30 .nil := by
  decide

theorem bst_scenario_remove :
    BST.remove (bstInserts [30, 20, 10, 25]) 30 =
      (true, .node (.node .nil 10 .nil) 20 (.node .nil 25 .nil)) := by
  rw [bst_scenario_tree]
  exact BST.remove_found_left (by decide) (by decide)

theorem avl_scenario_tree :
    avlInserts [30, 20, 10, 25] =
      .node (.node .nil 10 0 .nil) 20 2 (.node (.node .nil 25 0 .nil) 30 1 .nil) := by
  decide

theorem avl_scenario_remove_inner :
    AVL.remove (.node (.node .nil 25 0 .nil) 30 1 .nil) 30 = (true, .node .nil 25 0 .nil) := by
  rw [AVL.remove_found_left_only (by decide) (by decide)]
  decide

theorem avl_scenario_remove :
    (AVL.remove (avlInserts [30, 20, 10, 25]) 30).2 =
      .node (.node .nil 10 0 .nil) 20 1 (.node .nil 25 0 .nil) := by
  rw [avl_scenario_tree,
    @AVL.remove_gt_true (.node .nil 10 0 .nil) (.node (.node .nil 25 0 .nil) 30 1 .nil)
      20 2 30 (by decide) (by decide) (by rw [avl_scenario_remove_inner]),
    avl_scenario_remove_inner]
  decide

theorem c3_root_becomes_20_not_25 :
    rootDataB (BST.remove (bstInserts [30, 20, 10, 25]) 30).2 = some 20 ∧
    rootDataB (BST.remove (bstInserts [30, 20, 10, 25]) 30).2 ≠ some 25 ∧
    rootDataA (AVL.remove (avlInserts [30, 20, 10, 25]) 30).2 = some 20 ∧
    rootDataA (AVL.remove (avlInserts [30, 20, 10, 25]) 30).2 ≠ some 25 := by
  rw [bst_scenario_remove, avl_scenario_remove]
  refine ⟨rfl, by decide, rfl, by decide⟩

/-- C3 (amended): removal of a present value from a search-ordered BST
(and in particular the two-children case, which copies the in-order
predecessor's value and recursively removes it from the left subtree)
reports success, destroys exactly one node, and preserves the search-tree
property; on {30,20,10,25} with 30 removed, the root's value becomes 20
via the one-child case, not 25. -/
theorem c3_remove_present_spec :
    (∀ (t : BTree) (v : Int), orderedB t = true → BST.contain t v = true →
      (BST.remove t v).1 = true ∧
      sizeB (BST.remove t v).2 + 1 = sizeB t ∧
      orderedB (BST.remove t v).2 = true) ∧
    rootDataB (BST.remove (bstInserts [30, 20, 10, 25]) 30).2 = some 20 := by
  constructor
  · intro t v ho hc
    refine ⟨?_, bst_remove_size ho v hc, (bst_remove_good ho v).1⟩
    rw [bst_remove_fst ho v, hc]
  · rw [bst_scenario_remove]
    rfl

/-- Witness for C3's amended theorem at a removal that exercises the
two-children case: in the tree built from [20, 10, 30, 25, 40], node 30
has children 25 and 40. -/
theorem c3_remove_present_spec_witness :
    (BST.remove (bstInserts [20, 10, 30, 25, 40]) 30).1 = true ∧
    sizeB (BST.remove (bstInserts [20, 10, 30, 25, 40]) 30).2 + 1 =
      sizeB (bstInserts [20, 10, 30, 25, 40]) ∧
    orderedB (BST.remove (bstInserts [20, 10, 30, 25, 40]) 30).2 = true :=
  c3_remove_present_spec.1 (bstInserts [20, 10, 30, 25, 40]) 30 (by decide) (by decide)

/-- C4: inserting 10, 20, 30 in ascending order into the empty AVL tree
produces exactly the result of one left rotation at the root: the root
holds 20, its left child 10, its right child 30, and `is_balanced()`
returns `true`; the same insertions into the plain BST produce the
right-leaning chain 10 → 20 → 30. -/
theorem c4_ascending_inserts :
    (AVL.insert (AVL.insert (AVL.insert .nil 10).2 20).2 30).2
        = .node (.node .nil 10 0 .nil) 20 1 (.node .nil 30 0 .nil) ∧
    (AVL.insert (AVL.insert (AVL.insert .nil 10).2 20).2 30).2
        = AVL.rotateLeft (.node .nil 10 2 (.node .nil 20 1 (.node .nil 30 0 .nil))) ∧
    AVL.is_balanced (AVL.insert (AVL.insert (AVL.insert .nil 10).2 20).2 30).2 = true ∧
    (BST.insert (BST.insert (BST.insert .nil 10).2 20).2 30).2
        = .node .nil 10 (.node .nil 20 (.node .nil 30 .nil)) := by
  refine ⟨?_, ?_, ?_, ?_⟩ <;> decide

/-- C5: for the AVL variant, after any sequence of public operations
applied to the initially empty tree, every node's cached `height` field
equals `1 + max(height(left subtree), height(right subtree))` with the
height of an empty subtree being `-1`; and a newly created leaf carries
height 0. -/
theorem c5_avl_heights_correct (ops : List Op) :
    heightOk (runA ops) = true ∧
    (∀ v : Int, AVL.insert .nil v = (true, .node .nil v 0 .nil)) :=
  ⟨(runA_inv ops).2.1, fun _ => rfl⟩

/-- C6: on the empty tree, `contain` reports `false` for every value in
both variants and the AVL traversals return the empty sequence; the BST
traversals, however, pass the null root to helpers that dereference it
(modelled `none`) instead of returning the empty sequence, contradicting
the claim for the BST variant. -/
theorem c6_empty_tree_queries :
    (∀ v : Int, BST.contain .nil v = false) ∧
    (∀ v : Int, AVL.contain .nil v = false) ∧
    AVL.in_order .nil = [] ∧ AVL.pre_order .nil = [] ∧ AVL.post_order .nil = [] ∧
    BST.in_order .nil = none ∧ BST.pre_order .nil = none ∧ BST.post_order .nil = none :=
  ⟨fun _ => rfl, fun _ => rfl, rfl, rfl, rfl, rfl, rfl, rfl⟩

/-- C7: inserting a value already present in the tree returns `false` and
leaves the tree entirely unchanged, in both variants. -/
theorem c7_insert_duplicate_noop (v : Int) :
    (∀ t : BTree, BST.contain t v = true → BST.insert t v = (false, t)) ∧
    (∀ t : ATree, AVL.contain t v = true → AVL.insert t v = (false, t)) :=
  ⟨fun _ hc => bst_insert_of_contain hc, fun _ hc => avl_insert_of_contain hc⟩

/-- Witness for C7 at the singleton trees holding 5. -/
theorem c7_insert_duplicate_noop_witness :
    BST.insert (.node .nil 5 .nil) 5 = (false, .node .nil 5 .nil) ∧
    AVL.insert (.node .nil 5 0 .nil) 5 = (false, .node .nil 5 0 .nil) :=
  ⟨(c7_insert_duplicate_noop 5).1 _ (by decide),
   (c7_insert_duplicate_noop 5).2 _ (by decide)⟩

/-- C8: removing a value not present in the tree returns `false` and
leaves the tree entirely unchanged, in both variants; in particular,
removing from the empty tree returns `false` for every value. -/
theorem c8_remove_absent_noop (v : Int) :
    (∀ t : BTree, BST.contain t v = false → BST.remove t v = (false, t)) ∧
    (∀ t : ATree, AVL.contain t v = false → AVL.remove t v = (false, t)) ∧
    BST.remove .nil v = (false, .nil) ∧
    AVL.remove .nil v = (false, .nil) :=
  ⟨fun _ hc => bst_remove_not_contain hc, fun _ hc => avl_remove_not_contain hc,
   BST.remove_nil, AVL.remove_empty⟩

/-- Witness for C8: removing 7 from the singleton trees holding 5. -/
theorem c8_remove_absent_noop_witness :
    BST.remove (.node .nil 5 .nil) 7 = (false, .node .nil 5 .nil) ∧
    AVL.remove (.node .nil 5 0 .nil) 7 = (false, .node .nil 5 0 .nil) :=
  ⟨(c8_remove_absent_noop 7).1 _ (by decide),
   (c8_remove_absent_noop 7).2.1 _ (by decide)⟩

/-- C9: on every search-ordered tree of either variant (every tree
reachable through the public interface is search-ordered), `insert v`
followed by `contains v` reports `true`, and `remove v` followed by
`contains v` reports `false`. -/
theorem c9_insert_remove_contain (v : Int) :
    (∀ t : BTree, orderedB t = true →
      BST.contain (BST.insert t v).2 v = true ∧
      BST.contain (BST.remove t v).2 v = false) ∧
    (∀ t : ATree, orderedA t = true →
      AVL.contain (AVL.insert t v).2 v = true ∧
      AVL.contain (AVL.remove t v).2 v = false) := by
  constructor
  · intro t ho
    constructor
    · rw [contain_eq_memB (bst_insert_ordered ho v)]
      exact (bst_insert_mem t v v).mpr (Or.inr rfl)
    · rw [contain_eq_memB (bst_remove_good ho v).1]
      cases hm : memB (BST.remove t v).2 v with
      | false => rfl
      | true => exact absurd (((bst_remove_good ho v).2 v).mp hm).2 (by simp)
  · intro t ho
    constructor
    · rw [contain_eq_memA (avl_insert_ordered ho v)]
      exact (avl_insert_mem t v v).mpr (Or.inr rfl)
    · rw [contain_eq_memA (avl_remove_good ho v).2.1]
      cases hm : memA (AVL.remove t v).2 v with
      | false => rfl
      | true => exact absurd (((avl_remove_good ho v).2.2 v).mp hm).2 (by simp)

/-- Witness for C9 on the empty trees with value 5. -/
theorem c9_insert_remove_contain_witness :
    (BST.contain (BST.insert .nil 5).2 5 = true ∧
     BST.contain (BST.remove .nil 5).2 5 = false) ∧
    (AVL.contain (AVL.insert .nil 5).2 5 = true ∧
     AVL.contain (AVL.remove .nil 5).2 5 = false) :=
  ⟨(c9_insert_remove_contain 5).1 .nil (by decide),
   (c9_insert_remove_contain 5).2 .nil (by decide)⟩

/-- C10: the public `find_node(v)` returns `nullptr` exactly when
`contain(v)` is `false`, and any node it returns stores exactly the
value `v`. -/
theorem c10_find_node (t : BTree) (v : Int) :
    (BST.find_node t v = none ↔ BST.contain t v = false) ∧
    (∀ st, BST.find_node t v = some st → rootDataB st = some v) := by
  induction t with
  | nil =>
    exact ⟨by simp [BST.find_node, BST.contain], fun st h => by simp [BST.find_node] at h⟩
  | node l d r ihl ihr =>
    by_cases h1 : v < d
    · constructor
      · rw [show BST.find_node (.node l d r) v = BST.find_node l v from by
            simp [BST.find_node, h1], BST.contain_lt h1]
        exact ihl.1
      · intro st hst
        rw [show BST.find_node (.node l d r) v = BST.find_node l v from by
            simp [BST.find_node, h1]] at hst
        exact ihl.2 st hst
    · by_cases h2 : d < v
      · constructor
        · rw [show BST.find_node (.node l d r) v = BST.find_node r v from by
              simp [BST.find_node, h1, h2], BST.contain_gt h1 h2]
          exact ihr.1
        · intro st hst
          rw [show BST.find_node (.node l d r) v = BST.find_node r v from by
              simp [BST.find_node, h1, h2]] at hst
          exact ihr.2 st hst
      · have hvd : v = d := by omega
        subst hvd
        constructor
        · rw [show BST.find_node (.node l v r) v = some (.node l v r) from by
              simp [BST.find_node, h1, h2], BST.contain_found h1 h2]
          simp
        · intro st hst
          rw [show BST.find_node (.node l v r) v = some (.node l v r) from by
              simp [BST.find_node, h1, h2]] at hst
          cases hst
          rfl

/-- Witness for C10 at the singleton tree holding 5. -/
theorem c10_find_node_witness :
    (BST.find_node (.node .nil 5 .nil) 5 = none ↔
      BST.contain (.node .nil 5 .nil) 5 = false) ∧
    rootDataB (.node .nil 5 .nil) = some 5 :=
  ⟨(c10_find_node (.node .nil 5 .nil) 5).1,
   (c10_find_node (.node .nil 5 .nil) 5).2 (.node .nil 5 .nil) (by decide)⟩
